import Mathlib

/-!
# Verification of `cmd/pfsck.go`

A shallow embedding of the scan-and-verify pipeline of `pfsck`:
the block verifier (`worker`), the tree walker (`walkDir`), the report
rendering at the end of `pfsck`, and the path resolver (`resolve`).

Conventions of the embedding.

* Go `uint32`/`uint64` values are `Nat`, Go `int`/`int32`/`int64` values are
  `Int`; every operation that can wrap is written with an explicit wrap
  (`wrapU32`, `wrapI64`, `wrapI32`).  Go `int` is taken to be 64 bits wide.
* A Go `string` is a Lean `String` holding the same characters.
* The metadata engine and the object store are collaborators outside the
  file; they appear as oracle functions gathered in an environment record.
* `logger` calls do not touch any value the program reads and are left out.
* Loops that Go does not bound (`for i <= n` over a wrapping counter, the
  pending-directory loop, the symlink recursion) take a fuel argument, and
  report `outOfFuel` / `none` when it runs out.
-/

namespace Pfsck

/-! ## Machine integers -/

/-- Value of a Go `uint32` computation whose mathematical result is `x`. -/
def wrapU32 (x : Int) : Nat := (x % 4294967296).toNat

/-- Value of a Go `int` (64-bit) computation whose mathematical result is `x`. -/
def wrapI64 (x : Int) : Int := (x + 9223372036854775808) % 18446744073709551616 - 9223372036854775808

/-- Value of a Go `int32` computation whose mathematical result is `x`. -/
def wrapI32 (x : Int) : Int := (x + 2147483648) % 4294967296 - 2147483648

/-! ## Formatting verbs of `fmt.Sprintf` used by the file -/

/-- Verb `%d` (and `%v`) on an unsigned integer: its decimal digits. -/
def fmtU (n : Nat) : String := Nat.repr n

/-- Verb `%d` on a signed integer: a minus sign for a negative value, then the digits. -/
def fmtD (z : Int) : String :=
  if z < 0 then "-" ++ Nat.repr z.natAbs else Nat.repr z.natAbs

/-- Upper-case hexadecimal digits of `n` (verb `%X`). -/
def hexUpper (n : Nat) : List Char := (Nat.toDigits 16 n).map Char.toUpper

/-- Verb `%02X`: upper-case hexadecimal, padded on the left with `0` to two characters. -/
def fmtX02 (n : Nat) : String :=
  String.mk (List.replicate (2 - (hexUpper n).length) '0' ++ hexUpper n)

/-- Verb `%13d`: decimal digits, padded on the left with blanks to thirteen characters. -/
def fmtD13 (n : Nat) : String :=
  String.mk (List.replicate (13 - (Nat.repr n).length) ' ' ++ (Nat.repr n).data)

/-! ## Data model -/

/-- Inode number, `meta.Ino` (a `uint64`). -/
abbrev Ino := Nat

/-- A `meta.Slice`: identifier (`uint64`) and the three `uint32` extents. -/
structure Slice where
  Id : Nat
  Size : Nat
  Off : Nat
  Len : Nat
deriving DecidableEq, Repr

/-- The task record `_file` sent from the walker to the workers. -/
structure _file where
  ino : Ino
  Name : String
  size : Nat
  ss : List Slice
deriving DecidableEq, Repr

/-! ## The block verifier: `worker` -/

/-- What a worker reads but never writes. -/
structure WorkerEnv where
  /-- Field `chunkConf.BlockSize`, a Go `int`. -/
  BlockSize : Int
  /-- Field `format.HashPrefix`. -/
  HashPrefix : Bool
  /-- Map `delfiles`; an absent key reads as `false`. -/
  delfiles : Ino → Bool
  /-- Whether `blob.Head(key)` returns a nil error. -/
  Head : String → Bool
  /-- Result of `m.GetPaths(meta.Background, inode)`. -/
  GetPaths : Ino → List String

/-- One existence probe, as issued by the innermost loop body. -/
structure Probe where
  id : Nat
  index : Nat
  size : Int
  key : String
deriving DecidableEq, Repr

/-- What a worker writes: the map `brokens` (as an association list in
insertion order), the counter `*count`, and a ghost log of the probes issued. -/
structure WorkerState where
  brokens : List (Ino × String)
  count : Int
  probes : List Probe
deriving DecidableEq, Repr

/-- Ways the Go code fails to return. -/
inductive Fault where
  | divideByZero
  | outOfFuel
deriving DecidableEq, Repr

deriving instance DecidableEq for Except

/-- Map read `brokens[inode]` with the comma-ok form. -/
def mapGet (m : List (Ino × String)) (k : Ino) : Option String :=
  (m.find? (fun e => e.1 == k)).map Prod.snd

/-- Map write `brokens[inode] = v`. -/
def mapSet (m : List (Ino × String)) (k : Ino) (v : String) : List (Ino × String) :=
  if (mapGet m k).isSome then m.map (fun e => if e.1 == k then (k, v) else e)
  else m ++ [(k, v)]

/-- Block-local key `fmt.Sprintf("%d_%d_%d", s.Id, i, sz)`. -/
def blockKey (id i : Nat) (sz : Int) : String :=
  fmtU id ++ "_" ++ fmtU i ++ "_" ++ fmtD sz

/-- Object key of a block, lines 273-278. -/
def objKey (hashPrefix : Bool) (id i : Nat) (sz : Int) : String :=
  if hashPrefix then
    fmtX02 (id % 256) ++ "/" ++ fmtU (id / 1000 / 1000) ++ "/" ++ blockKey id i sz
  else
    fmtU (id / 1000 / 1000) ++ "/" ++ fmtU (id / 1000) ++ "/" ++ blockKey id i sz

/-- Lines 280-286: record the inode as broken unless it already has an entry. -/
def recordMiss (env : WorkerEnv) (inode : Ino) (brokens : List (Ino × String)) :
    List (Ino × String) :=
  match mapGet brokens inode with
  | some _ => brokens
  | none =>
    match env.GetPaths inode with
    | p :: _ => mapSet brokens inode p
    | [] => mapSet brokens inode ("inode:" ++ fmtU inode)

/-- Loop bound `n := (s.Size - 1) / uint32(chunkConf.BlockSize)` of line 266
(the division is checked by the caller). -/
def lastIndex (env : WorkerEnv) (s : Slice) : Nat :=
  wrapU32 ((s.Size : Int) - 1) / wrapU32 env.BlockSize

/-- Byte size `sz` of block `i`, lines 268-271. -/
def blockSize (env : WorkerEnv) (s : Slice) (n i : Nat) : Int :=
  if i = n then wrapI64 ((s.Size : Int) - wrapI64 ((i : Int) * env.BlockSize))
  else env.BlockSize

/-- Body of the loop over block indexes, lines 268-288. -/
def probeBlock (env : WorkerEnv) (inode : Ino) (s : Slice) (n i : Nat)
    (st : WorkerState) : WorkerState :=
  let sz := blockSize env s n i
  let key := objKey env.HashPrefix s.Id i sz
  let st1 := { st with probes := st.probes ++ [⟨s.Id, i, sz, key⟩] }
  if env.Head key then st1
  else { st1 with brokens := recordMiss env inode st1.brokens }

/-- Loop `for i := uint32(0); i <= n; i++`, entered at counter value `i`. -/
def blockLoop (env : WorkerEnv) (inode : Ino) (s : Slice) (n : Nat) :
    Nat → Nat → WorkerState → Except Fault WorkerState
  | 0, _, _ => .error .outOfFuel
  | fuel + 1, i, st =>
    if i ≤ n then
      blockLoop env inode s n fuel (wrapU32 ((i : Int) + 1)) (probeBlock env inode s n i st)
    else .ok st

/-- One iteration of `for _, s := range ss`, lines 266-289. -/
def checkSlice (env : WorkerEnv) (fuel : Nat) (inode : Ino) (s : Slice)
    (st : WorkerState) : Except Fault WorkerState :=
  if wrapU32 env.BlockSize = 0 then .error .divideByZero
  else blockLoop env inode s (lastIndex env s) fuel 0 st

/-- Loop `for _, s := range ss`, lines 265-290. -/
def checkSlices (env : WorkerEnv) (fuel : Nat) (inode : Ino) :
    List Slice → WorkerState → Except Fault WorkerState
  | [], st => .ok st
  | s :: rest, st =>
    match checkSlice env fuel inode s st with
    | .ok st1 => checkSlices env fuel inode rest st1
    | .error e => .error e

/-- What the body of `for f := range todo` asks of the loop. -/
inductive Step where
  | next (st : WorkerState)
  | stop (st : WorkerState)
  | fault (e : Fault)
deriving DecidableEq, Repr

/-- Body of `for f := range todo`, lines 251-291. -/
def processTask (env : WorkerEnv) (fuel : Nat) (f : _file) (st : WorkerState) : Step :=
  if f.ino = 0 then .stop st
  else if env.delfiles f.ino then .next st
  else
    match checkSlices env fuel f.ino f.ss { st with count := wrapI32 (st.count + 1) } with
    | .ok st1 => .next st1
    | .error e => .fault e

/-- Function `worker` run on the tasks it receives from `todo`, in order,
until the channel is closed and empty or the loop is left by `break`. -/
def worker (env : WorkerEnv) (fuel : Nat) : List _file → WorkerState → Except Fault WorkerState
  | [], st => .ok st
  | f :: rest, st =>
    match processTask env fuel f st with
    | .next st1 => worker env fuel rest st1
    | .stop st1 => .ok st1
    | .fault e => .error e

/-- The probe issued for block `i` of slice `s` when the loop bound is `n`. -/
def mkProbe (env : WorkerEnv) (s : Slice) (n i : Nat) : Probe :=
  ⟨s.Id, i, blockSize env s n i, objKey env.HashPrefix s.Id i (blockSize env s n i)⟩

/-- Effect of one probe on the worker state: log it, and record a miss. -/
def applyProbe (env : WorkerEnv) (inode : Ino) (st : WorkerState) (p : Probe) : WorkerState :=
  if env.Head p.key then { st with probes := st.probes ++ [p] }
  else { st with probes := st.probes ++ [p], brokens := recordMiss env inode st.brokens }

/-- The probes derived from one slice: block indexes `0 .. n`. -/
def sliceProbes (env : WorkerEnv) (s : Slice) : List Probe :=
  (List.range' 0 (lastIndex env s + 1)).map (mkProbe env s (lastIndex env s))

/-- The probes derived from all slices of a task, in order. -/
def taskProbes (env : WorkerEnv) (f : _file) : List Probe :=
  f.ss.flatMap (sliceProbes env)

/-- The block loops of these slices all run to their end: the block size is a
non-zero `uint32`, the loop bound leaves room for the final increment of the
counter, and the fuel covers the iterations. -/
def Terminates (env : WorkerEnv) (fuel : Nat) (ss : List Slice) : Prop :=
  wrapU32 env.BlockSize ≠ 0 ∧
    ∀ s ∈ ss, lastIndex env s + 1 < 4294967296 ∧ lastIndex env s + 1 < fuel

instance (env : WorkerEnv) (fuel : Nat) (ss : List Slice) : Decidable (Terminates env fuel ss) := by
  unfold Terminates
  infer_instance

/-- The display path stored for a broken inode. -/
def displayPath (env : WorkerEnv) (inode : Ino) : String :=
  match env.GetPaths inode with
  | p :: _ => p
  | [] => "inode:" ++ fmtU inode

/-- Upper-case hexadecimal digit of a value below sixteen. -/
def hexDigit (d : Nat) : Char :=
  if d < 10 then Char.ofNat (48 + d) else Char.ofNat (55 + d)

/-- The object key as the specification words it. -/
def specObjKey (hashPrefix : Bool) (S i : Nat) (sz : Int) : String :=
  if hashPrefix then
    String.mk [hexDigit (S % 256 / 16), hexDigit (S % 256 % 16)] ++ "/" ++ fmtU (S / 1000000)
      ++ "/" ++ (fmtU S ++ "_" ++ fmtU i ++ "_" ++ fmtD sz)
  else
    fmtU (S / 1000000) ++ "/" ++ fmtU (S / 1000) ++ "/" ++ (fmtU S ++ "_" ++ fmtU i ++ "_" ++ fmtD sz)

/-- Number of blocks of a slice as the specification words it: `ceil(size / bs)`. -/
def ceilDiv (size bs : Nat) : Nat := (size + bs - 1) / bs

/-- Byte size of block `i` as the specification words it: the full block
size, except for the last block, which takes what is left of the slice. -/
def specBlockSize (size B i : Nat) : Int :=
  if i + 1 < ceilDiv size B then (B : Int) else (size : Int) - ((ceilDiv size B : Int) - 1) * B

/-- The state a loop step hands back, when it hands one back. -/
def Step.state? : Step → Option WorkerState
  | .next st => some st
  | .stop st => some st
  | .fault _ => none

/-- The inodes that have an entry in the map. -/
def keys (m : List (Ino × String)) : List Ino := m.map Prod.fst

/-! ## The tree walker: `walkDir` -/

/-- Modelled from the spec: the file type tag `Typ` of `meta.Attr` with the
constants `meta.TypeFile`, `meta.TypeDirectory`, `meta.TypeSymlink` and the
further types, all declared in package `meta`, which is not among the sources. -/
inductive FileType where
  | TypeFile
  | TypeDirectory
  | TypeSymlink
  | TypeFIFO
  | TypeBlockDev
  | TypeCharDev
  | TypeSocket
deriving DecidableEq, Repr

/-- The fields of `meta.Attr` the file reads: type, change time (`int64`), length (`uint64`). -/
structure Attr where
  Typ : FileType
  Ctime : Int
  Length : Nat
deriving DecidableEq, Repr

/-- A directory entry, `meta.Entry`. -/
structure Entry where
  Inode : Ino
  Name : String
  Attr : Attr
deriving DecidableEq, Repr

/-- What the walker asks of the metadata engine and of its context. -/
structure WalkEnv where
  /-- Result of `m.Readdir(ctx, inode, 1, &entries)`: the errno and the entries. -/
  Readdir : Ino → Nat × List Entry
  /-- The slices `m.ListSlicesByIno` stores for an inode (its errno is ignored by the caller). -/
  ListSlicesByIno : Ino → List Slice
  /-- Answer of `ctx.Canceled()` at its `k`-th call, counted from zero. -/
  Canceled : Nat → Bool

/-- The variables of `walkDir`: the stack `pending`, the tasks sent on `todo`
so far, how often `todo` was closed, how often `ctx.Canceled()` was called, and
a ghost log of the directories handed to `Readdir`. -/
structure WalkState where
  pending : List Ino
  todo : List _file
  closed : Nat
  polls : Nat
  listed : List Ino
deriving DecidableEq, Repr

/-- The task sent for an entry, line 116. -/
def taskOf (env : WalkEnv) (f : Entry) : _file :=
  ⟨f.Inode, f.Name, f.Attr.Length, env.ListSlicesByIno f.Inode⟩

/-- Lines 106-117 for one entry that is not `.` or `..`: `none` stands for the
`continue` of line 114, which skips the cancellation test. -/
def visitEntry (env : WalkEnv) (time : Int) (f : Entry) (st : WalkState) : Option WalkState :=
  if f.Attr.Typ = .TypeDirectory then
    some { st with pending := st.pending ++ [f.Inode] }
  else if f.Attr.Typ ≠ .TypeSymlink then
    if f.Attr.Ctime < time then none
    else some { st with todo := st.todo ++ [taskOf env f] }
  else some st

/-- Loop `for _, f := range entries`, lines 100-121; the flag tells whether the
loop was left by the `return` of line 119. -/
def entryLoop (env : WalkEnv) (time : Int) : List Entry → WalkState → WalkState × Bool
  | [], st => (st, false)
  | f :: rest, st =>
    if f.Name = "." ∨ f.Name = ".." then entryLoop env time rest st
    else
      match visitEntry env time f st with
      | none => entryLoop env time rest st
      | some st1 =>
        if env.Canceled st1.polls then ({ st1 with polls := st1.polls + 1 }, true)
        else entryLoop env time rest { st1 with polls := st1.polls + 1 }

/-- Loop `for len(pending) > 0` followed by `close(todo)`, lines 92-127.
`some st` is the state in which `walkDir` returns. -/
def walkLoop (env : WalkEnv) (time : Int) : Nat → WalkState → Option WalkState
  | 0, _ => none
  | fuel + 1, st =>
    match st.pending.getLast? with
    | none => some { st with closed := st.closed + 1 }
    | some inode =>
      let st1 := { st with pending := st.pending.dropLast, listed := st.listed ++ [inode] }
      if (env.Readdir inode).1 = 0 then
        match entryLoop env time (env.Readdir inode).2 st1 with
        | (st2, true) => some st2
        | (st2, false) => walkLoop env time fuel st2
      else walkLoop env time fuel st1

/-- Function `walkDir`, lines 89-128. -/
def walkDir (env : WalkEnv) (inode : Ino) (time : Int) (fuel : Nat) : Option WalkState :=
  walkLoop env time fuel ⟨[inode], [], 0, 0, []⟩

/-- Whether the walker sends a task for an entry. -/
def emits (time : Int) (e : Entry) : Bool :=
  e.Name != "." && e.Name != ".." && e.Attr.Typ != .TypeDirectory &&
    e.Attr.Typ != .TypeSymlink && decide (time ≤ e.Attr.Ctime)

/-- Whether the walker pushes an entry on the pending stack. -/
def isSubdir (e : Entry) : Bool :=
  e.Name != "." && e.Name != ".." && e.Attr.Typ == .TypeDirectory

/-- The entries of the given directories, in listing order. -/
def entriesOf (env : WalkEnv) (ds : List Ino) : List Entry :=
  ds.flatMap (fun d => (env.Readdir d).2)

/-- Invariant of the pending loop in an uncancelled walk whose listings
succeed: nothing is closed yet, the tasks sent are those of the entries listed
so far, every subdirectory seen is listed or pending, and so is the root. -/
def WalkInv (env : WalkEnv) (time : Int) (root : Ino) (st : WalkState) : Prop :=
  st.closed = 0 ∧
  st.todo = ((entriesOf env st.listed).filter (emits time)).map (taskOf env) ∧
  (∀ d ∈ st.listed, ∀ e ∈ (env.Readdir d).2, isSubdir e = true →
    e.Inode ∈ st.listed ∨ e.Inode ∈ st.pending) ∧
  (root ∈ st.listed ∨ root ∈ st.pending)

/-- The state after the directory on top of the stack has been listed in an
uncancelled walk, up to the number `k` of cancellation polls. -/
def afterListing (env : WalkEnv) (time : Int) (st : WalkState) (d : Ino) (k : Nat) : WalkState :=
  ⟨st.pending.dropLast ++ ((env.Readdir d).2.filter isSubdir).map Entry.Inode,
    st.todo ++ ((env.Readdir d).2.filter (emits time)).map (taskOf env),
    st.closed, st.polls + k, st.listed ++ [d]⟩

/-! ## The report at the end of `pfsck` -/

/-- One rendered entry, `fmt.Sprintf("%13d: %s", i, p)` of line 219. -/
def renderLine (e : Ino × String) : String := fmtD13 e.1 ++ ": " ++ e.2

/-- Go's comparison `a <= b` of two strings, on their characters: the first
position at which they differ decides, and a proper beginning comes first.
(Go compares the bytes; the UTF-8 encoding keeps the order of the code points.) -/
def charsLe : List Char → List Char → Bool
  | [], _ => true
  | _ :: _, [] => false
  | x :: xs, y :: ys => if x < y then true else if y < x then false else charsLe xs ys

/-- Go's `a <= b` on strings. -/
def StrLe (a b : String) : Prop := charsLe a.data b.data = true

instance : DecidableRel StrLe := fun a b => by
  unfold StrLe
  infer_instance

/-- Function `sort.Strings`: the lines in ascending order of Go's string comparison. -/
def sortStrings (l : List String) : List String := l.insertionSort StrLe

/-- Lines 215-222 of `pfsck`: the text written to the fail record, `none` when
no report is produced.  `order` lists the entries of `brokens` in the order in
which `range brokens` happens to yield them. -/
def pfsckReport (order : List (Ino × String)) : Option String :=
  if order.length > 0 then
    some (" broken files:" ++ fmtD (order.length : Int) ++ " \n" ++
      "\n".intercalate (sortStrings (order.map renderLine)))
  else none

/-! ## The path resolver: `resolve`

Paths, names and link targets are handled as lists of characters. -/

/-- A Go string as the list of its characters. -/
abbrev Str := List Char

/-- Function `strings.Split(p, "/")` for a one-character separator: the pieces
between the separators; the empty string yields one empty piece. -/
def splitOn (c : Char) : Str → List Str
  | [] => [[]]
  | x :: xs =>
    if x = c then [] :: splitOn c xs
    else
      match splitOn c xs with
      | [] => [[x]]
      | w :: ws => (x :: w) :: ws

/-- Function `strings.Join(ss, "/")` for a one-character separator. -/
def joinWith (c : Char) : List Str → Str
  | [] => []
  | [w] => w
  | w :: v :: ws => w ++ c :: joinWith c (v :: ws)

/-- Function `strings.Trim(p, "/")`: drop the leading and the trailing slashes. -/
def trimSlash (p : Str) : Str :=
  ((p.dropWhile (· == '/')).reverse.dropWhile (· == '/')).reverse

/-- Function `strings.HasPrefix`. -/
def hasPrefix (s pre : Str) : Bool := pre.isPrefixOf s

/-- Function `strings.Contains`. -/
def containsStr (s sub : Str) : Bool := s.tails.any (fun t => sub.isPrefixOf t)

/-- Function `strconv.ParseUint(s, 10, 64)`: `none` stands for a non-nil error
(empty input, a character that is not a decimal digit, or a value of `2^64` or more). -/
def parseUint (s : Str) : Option Nat :=
  if s = [] then none
  else if s.all Char.isDigit then
    let v := s.foldl (fun acc c => acc * 10 + (c.toNat - 48)) 0
    if v < 18446744073709551616 then some v else none
  else none

/-- One path element processed by `path.Clean`, on the elements kept so far:
an empty element and `.` are dropped, `..` removes the element before it, or is
kept when the path is not rooted and nothing but `..` elements precede it. -/
def cleanStep (rooted : Bool) (out : List Str) (c : Str) : List Str :=
  if c = [] ∨ c = ['.'] then out
  else if c = ['.', '.'] then
    match out.getLast? with
    | none => if rooted then out else out ++ [c]
    | some l => if l = ['.', '.'] then (if rooted then out else out ++ [c]) else out.dropLast
  else out ++ [c]

/-- Function `path.Clean`. -/
def pathClean (p : Str) : Str :=
  if p = [] then ['.']
  else
    let rooted := p.head? == some '/'
    let out := (splitOn '/' p).foldl (cleanStep rooted) []
    if rooted then '/' :: joinWith '/' out
    else if out = [] then ['.'] else joinWith '/' out

/-- Function `path.Join` of two elements: empty elements are ignored, the rest
is joined by a slash and cleaned; two empty elements give the empty string. -/
def pathJoin (a b : Str) : Str :=
  if a = [] ∧ b = [] then []
  else pathClean (if a = [] then b else if b = [] then a else a ++ '/' :: b)

/-- Constant `syscall.ENOTSUP` (its Linux value; only its being non-zero matters). -/
def ENOTSUP : Nat := 95

/-- Local `inodePrefix` of `resolve`. -/
def inodePrefix : Str := "inode:".data

/-- What `resolve` asks of the metadata engine and of package `vfs`.  The
engine writes its out-parameters when it returns errno `0` and leaves them
alone otherwise; `Access` both reads and writes the attributes it is handed. -/
structure MetaEnv where
  /-- Constant `meta.RootInode`. -/
  RootInode : Ino
  /-- Result of `m.GetAttr(ctx, inode, attr)`. -/
  GetAttr : Ino → Nat × Attr
  /-- Result of `m.Resolve(ctx, 1, p, inode, attr)`. -/
  Resolve : Str → Nat × Ino × Attr
  /-- Result of `m.Access(ctx, parent, vfs.MODE_MASK_R|vfs.MODE_MASK_X, attr)`. -/
  Access : Ino → Attr → Nat × Attr
  /-- Result of `m.Lookup(ctx, parent, name, inode, attr, false)`. -/
  Lookup : Ino → Str → Nat × Ino × Attr
  /-- Result of `m.ReadLink(ctx, inode, &buf)`. -/
  ReadLink : Ino → Nat × Str
  /-- Function `vfs.IsSpecialName`. -/
  IsSpecialName : Str → Bool
  /-- Function `vfs.GetInternalNodeByName`. -/
  GetInternalNodeByName : Str → Ino × Attr

/-- What a call of `resolve` leaves behind: the errno it returns and the
values of `*inode` and `*attr`. -/
structure Res where
  errno : Nat
  ino : Ino
  attr : Attr
deriving DecidableEq, Repr

/-- Outcome of lines 315-345 for one path element. -/
inductive VisitOut where
  /-- The element is empty, line 316. -/
  | skip
  /-- The element names an internal node, lines 319-321 (the loop is left). -/
  | special (ino : Ino)
  /-- A `return` with a non-zero errno. -/
  | ret (r : Res)
  /-- The element resolved to this inode, line 345. -/
  | next (ino : Ino) (attr : Attr)
  /-- The nested call of line 341 does not return. -/
  | stuck
deriving DecidableEq, Repr

/-- Lines 323-327: the permission check, made for every element but the first. -/
def accessStep (env : MetaEnv) (i : Nat) (parent : Ino) (attr : Attr) : Nat × Attr :=
  if i > 0 then env.Access parent attr else (0, attr)

/-- Lines 332-343: the element at index `i` looked up to the symlink `lnk`
with attributes `la`; `recur` stands for the recursive call of `resolve`. -/
def followLink (env : MetaEnv) (recur : Str → Ino → Attr → Option Res) (ss : List Str)
    (i : Nat) (lnk : Ino) (la : Attr) : VisitOut :=
  if (env.ReadLink lnk).1 ≠ 0 then .ret ⟨(env.ReadLink lnk).1, lnk, la⟩
  else if hasPrefix (env.ReadLink lnk).2 ['/'] = true ∨
      containsStr (env.ReadLink lnk).2 "://".data = true then
    .ret ⟨ENOTSUP, lnk, la⟩
  else
    match recur (pathJoin (joinWith '/' (ss.take i)) (env.ReadLink lnk).2) lnk la with
    | none => .stuck
    | some r => if r.errno ≠ 0 then .ret r else .next r.ino r.attr

/-- Lines 323-345: permission check, lookup, and the symlink case. -/
def descend (env : MetaEnv) (recur : Str → Ino → Attr → Option Res) (ss : List Str)
    (i : Nat) (name : Str) (parent ino : Ino) (attr : Attr) : VisitOut :=
  if (accessStep env i parent attr).1 ≠ 0 then
    .ret ⟨(accessStep env i parent attr).1, ino, attr⟩
  else if (env.Lookup parent name).1 ≠ 0 then
    .ret ⟨(env.Lookup parent name).1, ino, (accessStep env i parent attr).2⟩
  else if (env.Lookup parent name).2.2.Typ = .TypeSymlink then
    followLink env recur ss i (env.Lookup parent name).2.1 (env.Lookup parent name).2.2
  else .next (env.Lookup parent name).2.1 (env.Lookup parent name).2.2

/-- Lines 315-345: one element `name` at index `i` of `ss`. -/
def visit (env : MetaEnv) (recur : Str → Ino → Attr → Option Res) (ss : List Str)
    (i : Nat) (name : Str) (parent ino : Ino) (attr : Attr) : VisitOut :=
  if name.length = 0 then .skip
  else if parent = env.RootInode ∧ i = ss.length - 1 ∧ env.IsSpecialName name = true then
    .special (env.GetInternalNodeByName name).1
  else descend env recur ss i name parent ino attr

/-- How the loop over the path elements ends. -/
inductive WalkOut where
  /-- A `return` inside the loop. -/
  | ret (r : Res)
  /-- The loop is left with these values of `parent`, `*inode` and `*attr`;
  the flag tells that `attr` no longer points to the caller's attributes. -/
  | fin (parent ino : Ino) (attr : Attr) (diverted : Bool)
deriving DecidableEq, Repr

/-- Loop `for i, name := range ss`, lines 314-346, entered at index `i` with
the elements from there on. -/
def walkFrom (env : MetaEnv) (recur : Str → Ino → Attr → Option Res) (ss : List Str) :
    Nat → List Str → Ino → Ino → Attr → Option WalkOut
  | _, [], parent, ino, attr => some (.fin parent ino attr false)
  | i, name :: rest, parent, ino, attr =>
    match visit env recur ss i name parent ino attr with
    | .skip => walkFrom env recur ss (i + 1) rest parent ino attr
    | .special k => some (.fin k k attr true)
    | .ret r => some (.ret r)
    | .next k a => walkFrom env recur ss (i + 1) rest k k a
    | .stuck => none

/-- The direct inode reference a path spells, lines 297-298. -/
def inodeRef (p : Str) : Option Nat :=
  if hasPrefix p inodePrefix then parseUint (p.drop inodePrefix.length) else none

/-- Lines 347-353: what `resolve` returns once the loop is left. -/
def finish (env : MetaEnv) : WalkOut → Res
  | .ret r => r
  | .fin parent ino attr diverted =>
    if parent = env.RootInode then
      if (env.GetAttr parent).1 ≠ 0 then ⟨(env.GetAttr parent).1, parent, attr⟩
      else ⟨0, parent, if diverted then attr else (env.GetAttr parent).2⟩
    else ⟨0, ino, attr⟩

/-- Function `resolve`, lines 295-354; the fuel bounds the depth of the
recursion through symlinks, and `none` tells that it ran out. -/
def resolve (env : MetaEnv) : Nat → Str → Ino → Attr → Option Res
  | 0, _, _, _ => none
  | fuel + 1, p, ino, attr =>
    match inodeRef p with
    | some i =>
      some ⟨(env.GetAttr i).1, i, if (env.GetAttr i).1 = 0 then (env.GetAttr i).2 else attr⟩
    | none =>
      if (env.Resolve (trimSlash p)).1 ≠ ENOTSUP then
        some (if (env.Resolve (trimSlash p)).1 = 0
          then ⟨0, (env.Resolve (trimSlash p)).2.1, (env.Resolve (trimSlash p)).2.2⟩
          else ⟨(env.Resolve (trimSlash p)).1, ino, attr⟩)
      else
        (walkFrom env (fun q j a => resolve env fuel q j a) (splitOn '/' (trimSlash p)) 0
          (splitOn '/' (trimSlash p)) 1 ino attr).map (finish env)

/-- Path elements as `resolve` meets them in a cleaned path: none is empty
and none holds a slash. -/
def GoodElems (cs : List Str) : Prop := ∀ c ∈ cs, c ≠ [] ∧ '/' ∉ c

instance (cs : List Str) : Decidable (GoodElems cs) := by
  unfold GoodElems
  infer_instance

/-- Sequencing of two stretches of the loop: the second runs from the values
the first one ends with, unless the first one returned or did not end. -/
def andThen (o : Option WalkOut) (k : Ino → Ino → Attr → Option WalkOut) : Option WalkOut :=
  match o with
  | some (.fin p i a _) => k p i a
  | some (.ret r) => some (.ret r)
  | none => none

/-- Two results of `resolve` that its caller cannot tell apart: the same
errno and, when that is `0`, the same inode and attributes. -/
def Res.Agree (r1 r2 : Res) : Prop :=
  r1.errno = r2.errno ∧ (r1.errno = 0 → r1.ino = r2.ino ∧ r1.attr = r2.attr)

/-- The walk over the elements `pre` of the path `ss` arrives at a directory in
which `name` looks up to the symlink `lnk` with attributes `la` and target `t`. -/
def ReachesLink (env : MetaEnv) (recur : Str → Ino → Attr → Option Res) (ss pre : List Str)
    (name : Str) (ino0 : Ino) (attr0 : Attr) (lnk : Ino) (la : Attr) (t : Str) : Prop :=
  ∃ parent ino1 attr1,
    walkFrom env recur ss 0 pre 1 ino0 attr0 = some (.fin parent ino1 attr1 false) ∧
    (accessStep env pre.length parent attr1).1 = 0 ∧
    env.Lookup parent name = (0, lnk, la) ∧ la.Typ = .TypeSymlink ∧
    env.ReadLink lnk = (0, t)

/-! ### Concrete inputs used by the examples -/

/-- A store in which every probe fails: 4-byte blocks, legacy keys, inode 9
pending deletion, no reverse path known. -/
def demoEnv : WorkerEnv := ⟨4, false, fun i => i == 9, fun _ => false, fun _ => []⟩

/-- The same store with the default block size of 4 MiB and every object present. -/
def fullEnv : WorkerEnv := ⟨4194304, true, fun _ => false, fun _ => true, fun _ => []⟩

/-- A slice of ten bytes. -/
def demoSlice : Slice := ⟨1, 10, 0, 10⟩

/-- A slice of zero bytes. -/
def emptySlice : Slice := ⟨1, 0, 0, 0⟩

/-- The state a run starts from. -/
def demoState : WorkerState := ⟨[], 0, []⟩

/-- A task carrying the stop marker, inode `0`. -/
def stopTask : _file := ⟨0, "a", 10, [demoSlice]⟩

/-- A task for inode `5`. -/
def demoTask : _file := ⟨5, "b", 10, [demoSlice]⟩

/-- A task for inode `9`, which is pending deletion in `demoEnv`. -/
def deletedTask : _file := ⟨9, "c", 10, [demoSlice]⟩

/-- A small tree: the root `1` holds `.`, `..`, the directory `d` (inode 2),
a file changed at time 100, a file changed at time 99, a symlink and a FIFO;
directory `2` holds one file. -/
def demoTree (cancel : Bool) : WalkEnv where
  Readdir := fun d =>
    if d = 1 then
      (0, [⟨1, ".", ⟨.TypeDirectory, 0, 0⟩⟩, ⟨1, "..", ⟨.TypeDirectory, 0, 0⟩⟩,
        ⟨2, "d", ⟨.TypeDirectory, 100, 0⟩⟩, ⟨3, "new", ⟨.TypeFile, 100, 10⟩⟩,
        ⟨4, "old", ⟨.TypeFile, 99, 10⟩⟩, ⟨5, "lnk", ⟨.TypeSymlink, 100, 0⟩⟩,
        ⟨6, "pipe", ⟨.TypeFIFO, 100, 0⟩⟩])
    else if d = 2 then (0, [⟨7, "deep", ⟨.TypeFile, 200, 4⟩⟩])
    else (0, [])
  ListSlicesByIno := fun i => if i = 3 then [demoSlice] else []
  Canceled := fun _ => cancel

/-- The state in which the uncancelled walk of `demoTree` from the root returns. -/
def demoWalk : WalkState :=
  ⟨[], [⟨3, "new", 10, [demoSlice]⟩, ⟨6, "pipe", 0, []⟩, ⟨7, "deep", 4, []⟩], 1, 5, [1, 2]⟩

/-- Attributes of a directory, a regular file and a symlink in the examples. -/
def dirAttr : Attr := ⟨.TypeDirectory, 0, 0⟩

/-- Attributes of a regular file in the examples. -/
def fileAttr : Attr := ⟨.TypeFile, 0, 0⟩

/-- Attributes of a symlink in the examples. -/
def linkAttr : Attr := ⟨.TypeSymlink, 0, 0⟩

/-- A volume without bulk `Resolve`: the root `1` holds the directory `a`
(inode 2); `a` holds the symlinks `lnk` (3, to `c/d`) and `ref` (11, to
`../inode:5`), the directory `c` (4) and the file `z` (8); `c` holds the
directory `d` (5) and the file `z` (9); `d` holds the directory `x` (6) and the
file `f` (10); `x` holds the symlink `lnk2` (7, to `../../z`). -/
def linkEnv : MetaEnv where
  RootInode := 1
  GetAttr := fun _ => (0, dirAttr)
  Resolve := fun _ => (ENOTSUP, 0, dirAttr)
  Access := fun _ a => (0, a)
  Lookup := fun parent name =>
    if parent = 1 ∧ name = "a".data then (0, 2, dirAttr)
    else if parent = 2 ∧ name = "lnk".data then (0, 3, linkAttr)
    else if parent = 2 ∧ name = "ref".data then (0, 11, linkAttr)
    else if parent = 2 ∧ name = "c".data then (0, 4, dirAttr)
    else if parent = 2 ∧ name = "z".data then (0, 8, fileAttr)
    else if parent = 4 ∧ name = "d".data then (0, 5, dirAttr)
    else if parent = 4 ∧ name = "z".data then (0, 9, fileAttr)
    else if parent = 5 ∧ name = "x".data then (0, 6, dirAttr)
    else if parent = 5 ∧ name = "f".data then (0, 10, fileAttr)
    else if parent = 6 ∧ name = "lnk2".data then (0, 7, linkAttr)
    else (2, 0, dirAttr)
  ReadLink := fun i =>
    if i = 3 then (0, "c/d".data)
    else if i = 7 then (0, "../../z".data)
    else if i = 11 then (0, "../inode:5".data)
    else (22, [])
  IsSpecialName := fun n => n == ".stats".data
  GetInternalNodeByName := fun _ => (9223372032559808513, fileAttr)

/-- The state after `demoTask` has been processed from `demoState` in `demoEnv`. -/
def demoResult : WorkerState :=
  ⟨[(5, "inode:5")], 1,
    [⟨1, 0, 4, "0/0/1_0_4"⟩, ⟨1, 1, 4, "0/0/1_1_4"⟩, ⟨1, 2, 2, "0/0/1_2_2"⟩]⟩

/-! # Theorems -/

/-! ## Machine integers -/

theorem wrapU32_of_lt (x : Nat) (h : x < 4294967296) : wrapU32 (x : Int) = x := by
  unfold wrapU32; omega

theorem wrapI64_of_lt (x : Int) (h0 : -9223372036854775808 ≤ x) (h1 : x < 9223372036854775808) :
    wrapI64 x = x := by
  unfold wrapI64; omega

/-! ## Object keys -/

set_option maxRecDepth 200000 in
theorem fmtX02_byte : ∀ x, x < 256 →
    fmtX02 x = String.mk [hexDigit (x / 16), hexDigit (x % 16)] := by
  decide

/-- C1: the object key probed for slice `S`, block `i`, size `sz` is, with the
hash flag, the two upper-case hex digits of `S mod 256`, `/`, `S / 1000000`,
`/`, `S_i_sz`; without it `S / 1000000`, `/`, `S / 1000`, `/`, `S_i_sz`; and the
two keys of the example of the specification are as stated. -/
theorem objKey_spec (hashPrefix : Bool) (S i : Nat) (sz : Int) :
    objKey hashPrefix S i sz = specObjKey hashPrefix S i sz ∧
    objKey true 1234567 0 4194304 = "87/1/1234567_0_4194304" ∧
    objKey false 1234567 0 4194304 = "1/1234/1234567_0_4194304" := by
  refine ⟨?_, by decide, by decide⟩
  unfold objKey specObjKey blockKey
  rw [fmtX02_byte (S % 256) (Nat.mod_lt _ (by decide)), Nat.div_div_eq_div_mul]

/-! ## The broken map -/

theorem mapGet_eq_none_iff (m : List (Ino × String)) (k : Ino) :
    mapGet m k = none ↔ ∀ e ∈ m, e.1 ≠ k := by
  unfold mapGet
  simp [List.find?_eq_none]

theorem mapGet_append_self (m : List (Ino × String)) (k : Ino) (v : String)
    (h : mapGet m k = none) : mapGet (m ++ [(k, v)]) k = some v := by
  unfold mapGet at h ⊢
  simp only [Option.map_eq_none'] at h
  simp [List.find?_append, h]

theorem mapSet_of_none (m : List (Ino × String)) (k : Ino) (v : String)
    (h : mapGet m k = none) : mapSet m k v = m ++ [(k, v)] := by
  unfold mapSet
  simp [h]

theorem recordMiss_of_some (env : WorkerEnv) (k : Ino) (b : List (Ino × String)) (v : String)
    (h : mapGet b k = some v) : recordMiss env k b = b := by
  unfold recordMiss
  rw [h]

theorem recordMiss_of_none (env : WorkerEnv) (k : Ino) (b : List (Ino × String))
    (h : mapGet b k = none) : recordMiss env k b = b ++ [(k, displayPath env k)] := by
  unfold recordMiss displayPath
  rw [h]
  cases env.GetPaths k <;> simp [mapSet_of_none _ _ _ h]

theorem recordMiss_idem (env : WorkerEnv) (k : Ino) (b : List (Ino × String)) :
    recordMiss env k (recordMiss env k b) = recordMiss env k b := by
  cases h : mapGet b k with
  | some v => rw [recordMiss_of_some env k b v h, recordMiss_of_some env k b v h]
  | none =>
    rw [recordMiss_of_none env k b h]
    exact recordMiss_of_some env k _ _ (mapGet_append_self b k _ h)

/-! ## The block loop -/

theorem probeBlock_eq (env : WorkerEnv) (inode : Ino) (s : Slice) (n i : Nat) (st : WorkerState) :
    probeBlock env inode s n i st = applyProbe env inode st (mkProbe env s n i) := by
  unfold probeBlock applyProbe mkProbe
  simp only

theorem foldl_applyProbe_probes (env : WorkerEnv) (inode : Ino) (ps : List Probe) :
    ∀ st, (ps.foldl (applyProbe env inode) st).probes = st.probes ++ ps := by
  induction ps with
  | nil => intro st; simp
  | cons p ps ih =>
    intro st
    rw [List.foldl_cons, ih]
    unfold applyProbe
    split <;> simp

theorem foldl_applyProbe_count (env : WorkerEnv) (inode : Ino) (ps : List Probe) :
    ∀ st, (ps.foldl (applyProbe env inode) st).count = st.count := by
  induction ps with
  | nil => intro st; rfl
  | cons p ps ih =>
    intro st
    rw [List.foldl_cons, ih]
    unfold applyProbe
    split <;> rfl

theorem foldl_applyProbe_brokens (env : WorkerEnv) (inode : Ino) (ps : List Probe) :
    ∀ st, (ps.foldl (applyProbe env inode) st).brokens =
      if ps.all (fun p => env.Head p.key) then st.brokens
      else recordMiss env inode st.brokens := by
  induction ps with
  | nil => intro st; simp
  | cons p ps ih =>
    intro st
    rw [List.foldl_cons, ih]
    unfold applyProbe
    by_cases hp : env.Head p.key = true
    · simp [hp]
    · simp only [hp, Bool.false_eq_true, if_false, List.all_cons, Bool.false_and]
      split
      · rfl
      · exact recordMiss_idem env inode st.brokens

theorem blockLoop_eq (env : WorkerEnv) (inode : Ino) (s : Slice) (n : Nat)
    (hn : n + 1 < 4294967296) :
    ∀ fuel i st, i ≤ n + 1 → n + 1 - i < fuel →
      blockLoop env inode s n fuel i st =
        .ok (((List.range' i (n + 1 - i)).map (mkProbe env s n)).foldl (applyProbe env inode) st) := by
  intro fuel
  induction fuel with
  | zero => intro i st _ h; omega
  | succ fuel ih =>
    intro i st hi hf
    unfold blockLoop
    by_cases h : i ≤ n
    · have hw : wrapU32 ((i : Int) + 1) = i + 1 := by
        have := wrapU32_of_lt (i + 1) (by omega)
        simpa using this
      have hk : n + 1 - i = (n + 1 - (i + 1)) + 1 := by omega
      rw [if_pos h, hw, ih (i + 1) _ (by omega) (by omega), probeBlock_eq]
      conv_rhs => rw [hk, List.range'_succ]
      simp
    · have hk : n + 1 - i = 0 := by omega
      rw [if_neg h, hk]
      rfl

theorem blockLoop_diverges (env : WorkerEnv) (inode : Ino) (s : Slice) :
    ∀ fuel i st, i < 4294967296 →
      blockLoop env inode s 4294967295 fuel i st = .error .outOfFuel := by
  intro fuel
  induction fuel with
  | zero => intro i st _; rfl
  | succ fuel ih =>
    intro i st hi
    unfold blockLoop
    rw [if_pos (by omega)]
    apply ih
    unfold wrapU32
    omega

theorem checkSlice_eq (env : WorkerEnv) (fuel : Nat) (inode : Ino) (s : Slice) (st : WorkerState)
    (hb : wrapU32 env.BlockSize ≠ 0) (hn : lastIndex env s + 1 < 4294967296)
    (hf : lastIndex env s + 1 < fuel) :
    checkSlice env fuel inode s st = .ok ((sliceProbes env s).foldl (applyProbe env inode) st) := by
  unfold checkSlice sliceProbes
  rw [if_neg hb, blockLoop_eq env inode s _ hn fuel 0 st (by omega) (by omega)]
  simp

theorem checkSlices_eq (env : WorkerEnv) (fuel : Nat) (inode : Ino) (ss : List Slice)
    (h : Terminates env fuel ss) :
    ∀ st, checkSlices env fuel inode ss st =
      .ok ((ss.flatMap (sliceProbes env)).foldl (applyProbe env inode) st) := by
  induction ss with
  | nil => intro st; rfl
  | cons s rest ih =>
    intro st
    have hs := h.2 s (List.mem_cons_self _ _)
    have hrest : Terminates env fuel rest :=
      ⟨h.1, fun t ht => h.2 t (List.mem_cons_of_mem _ ht)⟩
    unfold checkSlices
    rw [checkSlice_eq env fuel inode s st h.1 hs.1 hs.2]
    simp only
    rw [ih hrest]
    simp [List.flatMap_cons, List.foldl_append]

/-- Outcome of a task that is neither the stop marker nor pending deletion,
when its block loops run to their end. -/
theorem processTask_eq (env : WorkerEnv) (fuel : Nat) (f : _file) (st : WorkerState)
    (h0 : f.ino ≠ 0) (hd : env.delfiles f.ino = false) (ht : Terminates env fuel f.ss) :
    processTask env fuel f st =
      .next ((taskProbes env f).foldl (applyProbe env f.ino)
        { st with count := wrapI32 (st.count + 1) }) := by
  unfold processTask taskProbes
  rw [if_neg h0, hd, checkSlices_eq env fuel f.ino f.ss ht]
  simp

/-! ## Partial runs of the block loop -/

theorem blockLoop_ok (env : WorkerEnv) (inode : Ino) (s : Slice) (n : Nat) :
    ∀ fuel i st st', blockLoop env inode s n fuel i st = .ok st' →
      ∃ ps : List Probe, st' = ps.foldl (applyProbe env inode) st := by
  intro fuel
  induction fuel with
  | zero => intro i st st' h; simp [blockLoop] at h
  | succ fuel ih =>
    intro i st st' h
    unfold blockLoop at h
    split at h
    · obtain ⟨ps, hps⟩ := ih _ _ _ h
      exact ⟨mkProbe env s n i :: ps, by rw [hps, probeBlock_eq]; rfl⟩
    · exact ⟨[], by simpa using (Except.ok.inj h).symm⟩

theorem checkSlices_ok (env : WorkerEnv) (fuel : Nat) (inode : Ino) (ss : List Slice) :
    ∀ st st', checkSlices env fuel inode ss st = .ok st' →
      ∃ ps : List Probe, st' = ps.foldl (applyProbe env inode) st := by
  induction ss with
  | nil => intro st st' h; exact ⟨[], by simpa [checkSlices] using (Except.ok.inj h).symm⟩
  | cons s rest ih =>
    intro st st' h
    unfold checkSlices at h
    cases h1 : checkSlice env fuel inode s st with
    | error e => rw [h1] at h; simp at h
    | ok st1 =>
      rw [h1] at h
      simp only at h
      obtain ⟨ps2, hps2⟩ := ih _ _ h
      unfold checkSlice at h1
      split at h1
      · simp at h1
      · obtain ⟨ps1, hps1⟩ := blockLoop_ok env inode s _ _ _ _ _ h1
        exact ⟨ps1 ++ ps2, by rw [hps2, hps1, List.foldl_append]⟩

theorem processTask_state (env : WorkerEnv) (fuel : Nat) (f : _file) (st st' : WorkerState)
    (h : (processTask env fuel f st).state? = some st') :
    st' = st ∨ ∃ ps : List Probe, st' = ps.foldl (applyProbe env f.ino)
      { st with count := wrapI32 (st.count + 1) } := by
  unfold processTask at h
  split at h
  · left; simpa [Step.state?] using h.symm
  · split at h
    · left; simpa [Step.state?] using h.symm
    · cases h1 : checkSlices env fuel f.ino f.ss { st with count := wrapI32 (st.count + 1) } with
      | error e => rw [h1] at h; simp [Step.state?] at h
      | ok st1 =>
        rw [h1] at h
        simp only [Step.state?, Option.some.injEq] at h
        subst h
        exact Or.inr (checkSlices_ok env fuel f.ino f.ss _ _ h1)

/-! ## Block counts and block sizes -/

theorem ceilDiv_eq (size B : Nat) (hB : 0 < B) (hS : 0 < size) :
    ceilDiv size B = (size - 1) / B + 1 := by
  unfold ceilDiv
  have h : size + B - 1 = (size - 1) + B := by omega
  rw [h, Nat.add_div_right _ hB]

theorem lastIndex_eq (env : WorkerEnv) (s : Slice) (B : Nat) (hB : env.BlockSize = (B : Int))
    (hB1 : B < 4294967296) (hS0 : 0 < s.Size) (hS1 : s.Size < 4294967296) :
    lastIndex env s = (s.Size - 1) / B := by
  unfold lastIndex
  have h : ((s.Size : Int) - 1) = ((s.Size - 1 : Nat) : Int) := by omega
  rw [hB, h, wrapU32_of_lt _ (by omega), wrapU32_of_lt _ hB1]

theorem blockSize_eq (env : WorkerEnv) (s : Slice) (B i : Nat) (hB : env.BlockSize = (B : Int))
    (hB0 : 0 < B) (hS0 : 0 < s.Size) (hS1 : s.Size < 4294967296)
    (hi : i ≤ (s.Size - 1) / B) :
    blockSize env s ((s.Size - 1) / B) i = specBlockSize s.Size B i := by
  unfold blockSize specBlockSize
  rw [ceilDiv_eq _ _ hB0 hS0, hB]
  have hm : (s.Size - 1) / B * B ≤ s.Size - 1 := Nat.div_mul_le_self _ _
  by_cases h : i = (s.Size - 1) / B
  · subst h
    rw [if_pos rfl, if_neg (by omega)]
    have hc : (((s.Size - 1) / B : Nat) : Int) * (B : Int) = (((s.Size - 1) / B * B : Nat) : Int) := by
      push_cast; rfl
    have h1 : wrapI64 (((s.Size - 1) / B * B : Nat) : Int) = (((s.Size - 1) / B * B : Nat) : Int) :=
      wrapI64_of_lt _ (by omega) (by omega)
    rw [hc, h1, wrapI64_of_lt _ (by omega) (by omega)]
    push_cast
    ring
  · rw [if_neg h, if_pos (by omega)]

theorem sum_map_range_const (f : Nat → Int) (c : Int) :
    ∀ k, (∀ i, i < k → f i = c) → ((List.range k).map f).sum = k * c := by
  intro k
  induction k with
  | zero => intro _; simp
  | succ k ih =>
    intro h
    rw [List.range_succ, List.map_append, List.sum_append,
      ih (fun i hi => h i (by omega))]
    simp only [List.map_cons, List.map_nil, List.sum_cons, List.sum_nil, add_zero]
    rw [h k (by omega)]
    push_cast
    ring

theorem specBlockSize_last (size B : Nat) (hB0 : 0 < B) (hS0 : 0 < size) :
    specBlockSize size B (ceilDiv size B - 1) =
      if size % B = 0 then (B : Int) else ((size % B : Nat) : Int) := by
  unfold specBlockSize
  rw [if_neg (by omega), ceilDiv_eq _ _ hB0 hS0]
  have hd := Nat.div_add_mod (size - 1) B
  have hr := Nat.mod_lt (size - 1) hB0
  have hsz : size = B * ((size - 1) / B) + ((size - 1) % B + 1) := by omega
  have hmod : size % B = ((size - 1) % B + 1) % B := by
    conv_lhs => rw [hsz, Nat.mul_add_mod]
  have hcast : ((B * ((size - 1) / B) : Nat) : Int) = (B : Int) * (((size - 1) / B : Nat) : Int) := by
    push_cast; rfl
  by_cases hfull : (size - 1) % B + 1 = B
  · rw [hfull, Nat.mod_self] at hmod
    rw [if_pos hmod]
    push_cast
    have : (size : Int) = (B : Int) * (((size - 1) / B : Nat) : Int) + B := by
      rw [← hcast]; omega
    linarith
  · have hlt : (size - 1) % B + 1 < B := by omega
    rw [Nat.mod_eq_of_lt hlt] at hmod
    rw [if_neg (by omega), hmod]
    push_cast
    have : (size : Int) = (B : Int) * (((size - 1) / B : Nat) : Int) + (((size - 1) % B : Nat) : Int) + 1 := by
      rw [← hcast]; omega
    linarith

theorem specBlockSize_bounds (size B i : Nat) (hB0 : 0 < B) (hS0 : 0 < size)
    (hi : i < ceilDiv size B) : 1 ≤ specBlockSize size B i ∧ specBlockSize size B i ≤ B := by
  by_cases h : i + 1 < ceilDiv size B
  · unfold specBlockSize
    rw [if_pos h]
    omega
  · have hi' : i = ceilDiv size B - 1 := by omega
    rw [hi', specBlockSize_last size B hB0 hS0]
    have hr := Nat.mod_lt size hB0
    split <;> omega

theorem specBlockSize_sum (size B : Nat) (hB0 : 0 < B) (hS0 : 0 < size) :
    ((List.range (ceilDiv size B)).map (specBlockSize size B)).sum = size := by
  obtain ⟨n, hn⟩ : ∃ n, ceilDiv size B = n + 1 := ⟨_, ceilDiv_eq size B hB0 hS0⟩
  have hl : specBlockSize size B n = (size : Int) - (n : Int) * B := by
    unfold specBlockSize
    rw [if_neg (by omega), hn]
    push_cast
    ring
  have hfull : ∀ i, i < n → specBlockSize size B i = (B : Int) := by
    intro i hi
    unfold specBlockSize
    rw [if_pos (by omega)]
  rw [hn, List.range_succ, List.map_append, List.sum_append,
    sum_map_range_const _ (B : Int) n hfull]
  simp only [List.map_cons, List.map_nil, List.sum_cons, List.sum_nil, add_zero]
  rw [hl]
  ring

/-- C10: for a slice of positive size and a block size `0 < B < 2^32` the
worker probes blocks `0 .. count-1`, `count = ceil(size / B)`, whose sizes are
`B` for every block but the last and `size - (count-1)*B` for the last, which
is `size mod B` when that is not zero and `B` otherwise; every size lies in
`[1, B]` and the sizes add up to `size`. -/
theorem block_sizes (env : WorkerEnv) (fuel : Nat) (inode : Ino) (s : Slice) (st : WorkerState)
    (B : Nat) (hB : env.BlockSize = (B : Int)) (hB0 : 0 < B) (hB1 : B < 4294967296)
    (hS0 : 0 < s.Size) (hS1 : s.Size < 4294967296) (hf : s.Size < fuel) :
    ∃ st', checkSlice env fuel inode s st = .ok st' ∧
      st'.probes = st.probes ++ (List.range (ceilDiv s.Size B)).map (fun i =>
        ⟨s.Id, i, specBlockSize s.Size B i,
          objKey env.HashPrefix s.Id i (specBlockSize s.Size B i)⟩) ∧
      (∀ i, i + 1 < ceilDiv s.Size B → specBlockSize s.Size B i = B) ∧
      specBlockSize s.Size B (ceilDiv s.Size B - 1) =
        (s.Size : Int) - ((ceilDiv s.Size B : Int) - 1) * B ∧
      specBlockSize s.Size B (ceilDiv s.Size B - 1) =
        (if s.Size % B = 0 then (B : Int) else ((s.Size % B : Nat) : Int)) ∧
      (∀ i, i < ceilDiv s.Size B →
        1 ≤ specBlockSize s.Size B i ∧ specBlockSize s.Size B i ≤ B) ∧
      ((List.range (ceilDiv s.Size B)).map (specBlockSize s.Size B)).sum = s.Size := by
  have hn := lastIndex_eq env s B hB hB1 hS0 hS1
  have hc := ceilDiv_eq s.Size B hB0 hS0
  have hle : (s.Size - 1) / B ≤ s.Size - 1 := Nat.div_le_self _ _
  have hwb : wrapU32 env.BlockSize ≠ 0 := by
    rw [hB, wrapU32_of_lt _ hB1]; omega
  refine ⟨_, checkSlice_eq env fuel inode s st hwb (by omega) (by omega), ?_, ?_, ?_,
    specBlockSize_last _ _ hB0 hS0, fun i hi => specBlockSize_bounds _ _ i hB0 hS0 hi,
    specBlockSize_sum _ _ hB0 hS0⟩
  · rw [foldl_applyProbe_probes]
    unfold sliceProbes
    rw [hn, hc, List.range_eq_range']
    congr 1
    apply List.map_congr_left
    intro i hi
    have hi' : i ≤ (s.Size - 1) / B := by
      have := (List.mem_range'_1.mp hi).2
      omega
    unfold mkProbe
    rw [blockSize_eq env s B i hB hB0 hS0 hS1 hi']
  · intro i hi
    unfold specBlockSize
    rw [if_pos hi]
  · unfold specBlockSize
    rw [if_neg (by omega)]

/-- The block sizes of a ten-byte slice cut into four-byte blocks. -/
theorem block_sizes_witness :
    ∃ st', checkSlice demoEnv 11 7 demoSlice demoState = .ok st' ∧
      st'.probes = demoState.probes ++ (List.range (ceilDiv demoSlice.Size 4)).map (fun i =>
        ⟨demoSlice.Id, i, specBlockSize demoSlice.Size 4 i,
          objKey demoEnv.HashPrefix demoSlice.Id i (specBlockSize demoSlice.Size 4 i)⟩) ∧
      (∀ i, i + 1 < ceilDiv demoSlice.Size 4 → specBlockSize demoSlice.Size 4 i = (4 : Nat)) ∧
      specBlockSize demoSlice.Size 4 (ceilDiv demoSlice.Size 4 - 1) =
        (demoSlice.Size : Int) - ((ceilDiv demoSlice.Size 4 : Int) - 1) * (4 : Nat) ∧
      specBlockSize demoSlice.Size 4 (ceilDiv demoSlice.Size 4 - 1) =
        (if demoSlice.Size % 4 = 0 then ((4 : Nat) : Int) else ((demoSlice.Size % 4 : Nat) : Int)) ∧
      (∀ i, i < ceilDiv demoSlice.Size 4 →
        1 ≤ specBlockSize demoSlice.Size 4 i ∧ specBlockSize demoSlice.Size 4 i ≤ (4 : Nat)) ∧
      ((List.range (ceilDiv demoSlice.Size 4)).map (specBlockSize demoSlice.Size 4)).sum
        = demoSlice.Size :=
  block_sizes demoEnv 11 7 demoSlice demoState 4 rfl (by decide) (by decide) (by decide)
    (by decide) (by decide)

/-- The three keys probed for the ten-byte slice `1` with four-byte blocks. -/
theorem checkSlice_demo : (checkSlice demoEnv 11 7 demoSlice demoState).toOption.map
    (fun st => st.probes.map Probe.key) = some ["0/0/1_0_4", "0/0/1_1_4", "0/0/1_2_2"] := by
  decide

/-- C2 (failing input): for a slice of size zero and the default block size of
4 MiB the worker probes the 1024 blocks `0 .. 1023`, the last one with the
negative size `-4290772992`, where `ceil(0 / bs)` is `0`. -/
theorem empty_slice_probes :
    ∃ st', checkSlice fullEnv 2048 7 emptySlice demoState = .ok st' ∧
      st'.probes.map Probe.index = List.range 1024 ∧
      (st'.probes.map Probe.size).getLast? = some (-4290772992) ∧
      ceilDiv emptySlice.Size 4194304 = 0 := by
  have hl : lastIndex fullEnv emptySlice = 1023 := by decide
  refine ⟨_, checkSlice_eq fullEnv 2048 7 emptySlice demoState (by decide)
    (by rw [hl]; decide) (by rw [hl]; decide), ?_, ?_, by decide⟩
  · rw [foldl_applyProbe_probes]
    unfold sliceProbes
    rw [hl, List.range_eq_range']
    simp only [demoState, List.nil_append, List.map_map]
    exact List.map_id'' (fun _ => rfl) _
  · rw [foldl_applyProbe_probes]
    unfold sliceProbes
    rw [hl]
    simp only [demoState, List.nil_append, List.map_map]
    rw [show (1023 + 1 : Nat) = 1023 + 1 from rfl, List.range'_concat]
    simp only [List.map_append, List.map_cons, List.map_nil, List.getLast?_append,
      List.getLast?_singleton, Function.comp, mkProbe]
    decide

/-! ## One task -/

/-- C5: a task whose inode is pending deletion is left without any probe,
without any change of the broken map and without counting it, whatever the
object store answers. -/
theorem deleted_task_skipped (env : WorkerEnv) (fuel : Nat) (f : _file) (st : WorkerState)
    (hd : env.delfiles f.ino = true) :
    ∃ st', (processTask env fuel f st = .next st' ∨ processTask env fuel f st = .stop st') ∧
      st'.probes = st.probes ∧ st'.brokens = st.brokens ∧ st'.count = st.count := by
  refine ⟨st, ?_, rfl, rfl, rfl⟩
  unfold processTask
  by_cases h0 : f.ino = 0
  · right; rw [if_pos h0]
  · left; rw [if_neg h0, hd]; rfl

/-- The task for inode `9`, pending deletion in `demoEnv`, changes nothing. -/
theorem deleted_task_skipped_witness :
    ∃ st', (processTask demoEnv 11 deletedTask demoState = .next st' ∨
        processTask demoEnv 11 deletedTask demoState = .stop st') ∧
      st'.probes = demoState.probes ∧ st'.brokens = demoState.brokens ∧
      st'.count = demoState.count :=
  deleted_task_skipped demoEnv 11 deletedTask demoState (by decide)

theorem brokens_step (env : WorkerEnv) (fuel : Nat) (f : _file) (st st' : WorkerState)
    (h : (processTask env fuel f st).state? = some st') :
    (st'.brokens = st.brokens ∧
      ((∃ p ∈ st'.probes.drop st.probes.length, env.Head p.key = false) →
        mapGet st.brokens f.ino ≠ none)) ∨
    (st'.brokens = st.brokens ++ [(f.ino, displayPath env f.ino)] ∧
      mapGet st.brokens f.ino = none ∧
      ∃ p ∈ st'.probes.drop st.probes.length, env.Head p.key = false) := by
  rcases processTask_state env fuel f st st' h with rfl | ⟨ps, rfl⟩
  · left
    exact ⟨rfl, by simp⟩
  · rw [foldl_applyProbe_brokens, foldl_applyProbe_probes]
    simp only [List.drop_left]
    by_cases hall : ps.all (fun p => env.Head p.key) = true
    · left
      rw [if_pos hall]
      refine ⟨rfl, ?_⟩
      rintro ⟨p, hp, hpk⟩
      rw [List.all_eq_true] at hall
      rw [hall p hp] at hpk
      exact absurd hpk (by decide)
    · rw [if_neg hall]
      have hex : ∃ p ∈ ps, env.Head p.key = false := by
        by_contra hne
        apply hall
        rw [List.all_eq_true]
        intro p hp
        by_contra hpk
        exact hne ⟨p, hp, by simpa using hpk⟩
      cases hg : mapGet st.brokens f.ino with
      | some v =>
        left
        exact ⟨recordMiss_of_some env f.ino _ v hg, fun _ => by simp⟩
      | none =>
        right
        exact ⟨recordMiss_of_none env f.ino _ hg, rfl, hex⟩

/-- C4: processing one task either leaves the broken map exactly as it was
or appends one entry for the task's own inode, which had none; the map is
unchanged when every probe of the task passes and when the inode already has
an entry; otherwise the appended value is the first path of the reverse lookup,
or `inode:<n>` when there is none.  The probes of a task that is checked are
those of the keys derived from its slices, and a task whose block loops all
run through does hand back a state. -/
theorem brokens_frame (env : WorkerEnv) (fuel : Nat) (f : _file) (st : WorkerState) :
    (Terminates env fuel f.ss → ∃ st', (processTask env fuel f st).state? = some st') ∧
    (f.ino ≠ 0 → env.delfiles f.ino = false → Terminates env fuel f.ss →
      ∀ st', (processTask env fuel f st).state? = some st' →
        st'.probes = st.probes ++ taskProbes env f) ∧
    ∀ st', (processTask env fuel f st).state? = some st' →
      (st'.brokens = st.brokens ∨
        (mapGet st.brokens f.ino = none ∧
          st'.brokens = st.brokens ++ [(f.ino, displayPath env f.ino)])) ∧
      ((∀ p ∈ st'.probes.drop st.probes.length, env.Head p.key = true) →
        st'.brokens = st.brokens) ∧
      (mapGet st.brokens f.ino ≠ none → st'.brokens = st.brokens) ∧
      ((∃ p ∈ st'.probes.drop st.probes.length, env.Head p.key = false) →
        mapGet st.brokens f.ino = none →
        st'.brokens = st.brokens ++ [(f.ino, displayPath env f.ino)]) ∧
      (displayPath env f.ino = (env.GetPaths f.ino).headD ("inode:" ++ fmtU f.ino)) := by
  refine ⟨?_, ?_, ?_⟩
  · intro ht
    unfold processTask
    by_cases h0 : f.ino = 0
    · exact ⟨st, by rw [if_pos h0]; rfl⟩
    · cases hd : env.delfiles f.ino with
      | true => exact ⟨st, by rw [if_neg h0]; rfl⟩
      | false =>
        have := processTask_eq env fuel f st h0 hd ht
        unfold processTask at this
        rw [if_neg h0, hd] at this
        rw [if_neg h0]
        exact ⟨_, by rw [this]; rfl⟩
  · intro h0 hd ht st' h
    rw [processTask_eq env fuel f st h0 hd ht] at h
    simp only [Step.state?, Option.some.injEq] at h
    rw [← h, foldl_applyProbe_probes]
  · intro st' h
    have hdisp : displayPath env f.ino = (env.GetPaths f.ino).headD ("inode:" ++ fmtU f.ino) := by
      unfold displayPath
      cases env.GetPaths f.ino <;> rfl
    rcases brokens_step env fuel f st st' h with ⟨heq, hmiss⟩ | ⟨heq, hnone, hex⟩
    · refine ⟨Or.inl heq, fun _ => heq, fun _ => heq, fun hex hnone => ?_, hdisp⟩
      exact absurd hnone (hmiss hex)
    · refine ⟨Or.inr ⟨hnone, heq⟩, fun hall => ?_, fun hsome => absurd hnone hsome,
        fun _ _ => heq, hdisp⟩
      obtain ⟨p, hp, hpk⟩ := hex
      rw [hall p hp] at hpk
      exact absurd hpk (by decide)

/-- Processing `demoTask`, all of whose probes fail, appends the entry `inode:5`. -/
theorem brokens_frame_witness :
    (processTask demoEnv 11 demoTask demoState).state? = some demoResult ∧
    ((∃ p ∈ demoResult.probes.drop demoState.probes.length, demoEnv.Head p.key = false) →
      mapGet demoState.brokens demoTask.ino = none →
      demoResult.brokens =
        demoState.brokens ++ [(demoTask.ino, displayPath demoEnv demoTask.ino)]) :=
  ⟨by decide, ((brokens_frame demoEnv 11 demoTask demoState).2.2 demoResult (by decide)).2.2.2.1⟩

/-! ## The queue -/

theorem mem_keys_of_mapGet (m : List (Ino × String)) (k : Ino) (h : mapGet m k ≠ none) :
    k ∈ keys m := by
  by_contra hk
  apply h
  rw [mapGet_eq_none_iff]
  intro e he hek
  exact hk (hek ▸ List.mem_map_of_mem Prod.fst he)

theorem mapGet_of_not_mem_keys (m : List (Ino × String)) (k : Ino) (h : mapGet m k = none) :
    k ∉ keys m := by
  rw [mapGet_eq_none_iff] at h
  intro hk
  obtain ⟨e, he, hek⟩ := List.mem_map.mp hk
  exact h e he hek

theorem step_inv (env : WorkerEnv) (fuel : Nat) (f : _file) (st st' : WorkerState)
    (h : (processTask env fuel f st).state? = some st') (hnd : (keys st.brokens).Nodup) :
    (keys st'.brokens).Nodup ∧ ∀ k ∈ keys st.brokens, k ∈ keys st'.brokens := by
  rcases brokens_step env fuel f st st' h with ⟨heq, _⟩ | ⟨heq, hnone, _⟩
  · rw [heq]; exact ⟨hnd, fun _ hk => hk⟩
  · rw [heq]
    unfold keys at hnd ⊢
    rw [List.map_append, List.nodup_append]
    refine ⟨⟨hnd, List.nodup_singleton _, ?_⟩, fun k hk => List.mem_append_left _ hk⟩
    intro a ha hb
    simp only [List.map_cons, List.map_nil, List.mem_singleton] at hb
    subst hb
    exact mapGet_of_not_mem_keys _ _ hnone ha

theorem worker_inv (env : WorkerEnv) (fuel : Nat) (q : List _file) :
    ∀ st st', worker env fuel q st = .ok st' → (keys st.brokens).Nodup →
      (keys st'.brokens).Nodup ∧ ∀ k ∈ keys st.brokens, k ∈ keys st'.brokens := by
  induction q with
  | nil =>
    intro st st' h hnd
    have : st' = st := by simpa [worker] using (Except.ok.inj h).symm
    subst this
    exact ⟨hnd, fun _ hk => hk⟩
  | cons f rest ih =>
    intro st st' h hnd
    unfold worker at h
    cases hp : processTask env fuel f st with
    | next st1 =>
      rw [hp] at h
      have h1 := step_inv env fuel f st st1 (by rw [hp]; rfl) hnd
      have h2 := ih st1 st' h h1.1
      exact ⟨h2.1, fun k hk => h2.2 k (h1.2 k hk)⟩
    | stop st1 =>
      rw [hp] at h
      have : st' = st1 := by simpa using (Except.ok.inj h).symm
      subst this
      exact step_inv env fuel f st st' (by rw [hp]; rfl) hnd
    | fault e => rw [hp] at h; simp at h

theorem worker_total (env : WorkerEnv) (fuel : Nat) (q : List _file)
    (ht : ∀ g ∈ q, Terminates env fuel g.ss) :
    ∀ st, ∃ st', worker env fuel q st = .ok st' := by
  induction q with
  | nil => intro st; exact ⟨st, rfl⟩
  | cons f rest ih =>
    intro st
    have hrest := ih (fun g hg => ht g (List.mem_cons_of_mem _ hg))
    unfold worker
    by_cases h0 : f.ino = 0
    · exact ⟨st, by simp [processTask, h0]⟩
    · cases hd : env.delfiles f.ino with
      | true =>
        obtain ⟨st', hst'⟩ := hrest st
        exact ⟨st', by simp [processTask, h0, hd, hst']⟩
      | false =>
        rw [processTask_eq env fuel f st h0 hd (ht f (List.mem_cons_self _ _))]
        exact hrest _

theorem worker_append (env : WorkerEnv) (fuel : Nat) (pre rest : List _file)
    (hpre : ∀ g ∈ pre, g.ino ≠ 0) :
    ∀ st st1, worker env fuel pre st = .ok st1 →
      worker env fuel (pre ++ rest) st = worker env fuel rest st1 := by
  induction pre with
  | nil =>
    intro st st1 h
    have : st1 = st := by simpa [worker] using (Except.ok.inj h).symm
    subst this
    rfl
  | cons g pre ih =>
    intro st st1 h
    have hg : g.ino ≠ 0 := hpre g (List.mem_cons_self _ _)
    rw [List.cons_append]
    unfold worker at h
    conv_lhs => unfold worker
    cases hp : processTask env fuel g st with
    | next st2 =>
      rw [hp] at h
      exact ih (fun x hx => hpre x (List.mem_cons_of_mem _ hx)) st2 st1 h
    | stop st2 =>
      exfalso
      unfold processTask at hp
      rw [if_neg hg] at hp
      split at hp
      · simp at hp
      · split at hp <;> simp at hp
    | fault e => rw [hp] at h; simp at h

/-- C3 (amended): a task with a non-zero inode that the worker reaches, whose
inode is not pending deletion and one of whose derived keys fails the probe,
has exactly one entry in the broken map once it is processed and still when the
queue is drained, and the worker goes on with the tasks behind it. -/
theorem missing_block_recorded (env : WorkerEnv) (fuel : Nat) (pre post : List _file) (f : _file)
    (st : WorkerState) (hnd : (keys st.brokens).Nodup)
    (hpre : ∀ g ∈ pre, g.ino ≠ 0) (h0 : f.ino ≠ 0) (hd : env.delfiles f.ino = false)
    (hmiss : ∃ p ∈ taskProbes env f, env.Head p.key = false)
    (ht : ∀ g ∈ pre ++ f :: post, Terminates env fuel g.ss) :
    ∃ st1 st2 st',
      worker env fuel pre st = .ok st1 ∧ processTask env fuel f st1 = .next st2 ∧
      worker env fuel post st2 = .ok st' ∧
      worker env fuel (pre ++ f :: post) st = .ok st' ∧
      (keys st2.brokens).count f.ino = 1 ∧ (keys st'.brokens).count f.ino = 1 := by
  obtain ⟨st1, h1⟩ := worker_total env fuel pre
    (fun g hg => ht g (List.mem_append_left _ hg)) st
  have htf : Terminates env fuel f.ss :=
    ht f (List.mem_append_right _ (List.mem_cons_self _ _))
  have h2 := processTask_eq env fuel f st1 h0 hd htf
  obtain ⟨st', h3⟩ := worker_total env fuel post
    (fun g hg => ht g (List.mem_append_right _ (List.mem_cons_of_mem _ hg)))
    ((taskProbes env f).foldl (applyProbe env f.ino)
      { st1 with count := wrapI32 (st1.count + 1) })
  have hnd1 := (worker_inv env fuel pre st st1 h1 hnd).1
  have hst2 := step_inv env fuel f st1 _ (by rw [h2]; rfl) hnd1
  have hst' := worker_inv env fuel post _ st' h3 hst2.1
  have hmem : f.ino ∈ keys ((taskProbes env f).foldl (applyProbe env f.ino)
      { st1 with count := wrapI32 (st1.count + 1) }).brokens := by
    rw [foldl_applyProbe_brokens]
    have hall : ¬ ((taskProbes env f).all (fun p => env.Head p.key) = true) := by
      rw [List.all_eq_true]
      intro hall
      obtain ⟨p, hp, hpk⟩ := hmiss
      rw [hall p hp] at hpk
      exact absurd hpk (by decide)
    rw [if_neg hall]
    apply mem_keys_of_mapGet
    cases hg : mapGet st1.brokens f.ino with
    | some v => simp only; rw [recordMiss_of_some env f.ino _ v hg, hg]; simp
    | none =>
      simp only
      rw [recordMiss_of_none env f.ino _ hg, mapGet_append_self _ _ _ hg]
      simp
  refine ⟨st1, _, st', h1, h2, h3, ?_, List.count_eq_one_of_mem hst2.1 hmem,
    List.count_eq_one_of_mem hst'.1 (hst'.2 _ hmem)⟩
  rw [worker_append env fuel pre (f :: post) hpre st st1 h1]
  conv_lhs => unfold worker
  rw [h2]
  exact h3

/-- A queue of a deleted task, `demoTask` and a stop marker: inode `5` is recorded once. -/
theorem missing_block_recorded_witness :
    ∃ st1 st2 st',
      worker demoEnv 11 [deletedTask] demoState = .ok st1 ∧
      processTask demoEnv 11 demoTask st1 = .next st2 ∧
      worker demoEnv 11 [stopTask] st2 = .ok st' ∧
      worker demoEnv 11 ([deletedTask] ++ demoTask :: [stopTask]) demoState = .ok st' ∧
      (keys st2.brokens).count demoTask.ino = 1 ∧ (keys st'.brokens).count demoTask.ino = 1 :=
  missing_block_recorded demoEnv 11 [deletedTask] [stopTask] demoTask demoState
    (by decide) (by decide) (by decide) (by decide)
    ⟨⟨1, 0, 4, "0/0/1_0_4"⟩, by decide, by decide⟩
    (by
      intro g hg
      simp only [List.cons_append, List.nil_append, List.mem_cons, List.mem_singleton,
        List.not_mem_nil, or_false] at hg
      rcases hg with rfl | rfl | rfl <;> decide)

/-- C3 (counterexample): a task with inode `0` that is not pending deletion
and whose keys all fail the probe gets no entry, and the task behind it, whose
keys fail as well, is never processed: the run ends in the state it began in. -/
theorem stop_marker_not_recorded :
    demoEnv.delfiles stopTask.ino = false ∧
    (∃ p ∈ taskProbes demoEnv stopTask, demoEnv.Head p.key = false) ∧
    (∃ p ∈ taskProbes demoEnv demoTask, demoEnv.Head p.key = false) ∧
    worker demoEnv 11 [stopTask, demoTask] demoState = .ok demoState ∧
    mapGet demoState.brokens stopTask.ino = none ∧
    mapGet demoState.brokens demoTask.ino = none ∧
    worker demoEnv 11 [demoTask] demoState = .ok demoResult := by
  refine ⟨by decide, ⟨⟨1, 0, 4, "0/0/1_0_4"⟩, by decide, by decide⟩,
    ⟨⟨1, 0, 4, "0/0/1_0_4"⟩, by decide, by decide⟩, by decide, by decide, by decide, by decide⟩

/-! ## The tree walker -/

theorem emits_iff (time : Int) (e : Entry) :
    emits time e = true ↔ (e.Name ≠ "." ∧ e.Name ≠ ".." ∧ e.Attr.Typ ≠ .TypeDirectory ∧
      e.Attr.Typ ≠ .TypeSymlink ∧ time ≤ e.Attr.Ctime) := by
  unfold emits
  simp [and_assoc]

theorem isSubdir_iff (e : Entry) :
    isSubdir e = true ↔ (e.Name ≠ "." ∧ e.Name ≠ ".." ∧ e.Attr.Typ = .TypeDirectory) := by
  unfold isSubdir
  simp [and_assoc]

/-- The entry loop of an uncancelled walk: it is never left by `return`, it
pushes the subdirectories and sends the tasks of the entries that `emits` selects. -/
theorem entryLoop_uncancelled (env : WalkEnv) (time : Int) (hc : ∀ k, env.Canceled k = false) :
    ∀ es st, ∃ k, entryLoop env time es st =
      ({ pending := st.pending ++ (es.filter isSubdir).map Entry.Inode,
         todo := st.todo ++ (es.filter (emits time)).map (taskOf env),
         closed := st.closed, polls := st.polls + k, listed := st.listed }, false) := by
  intro es
  induction es with
  | nil => intro st; exact ⟨0, by simp [entryLoop]⟩
  | cons f rest ih =>
    intro st
    unfold entryLoop
    by_cases hdot : f.Name = "." ∨ f.Name = ".."
    · obtain ⟨k, hk⟩ := ih st
      have h1 : isSubdir f = false := by
        rcases hdot with h | h <;> simp [isSubdir, h]
      have h2 : emits time f = false := by
        rcases hdot with h | h <;> simp [emits, h]
      exact ⟨k, by rw [if_pos hdot, hk]; simp [List.filter_cons, h1, h2]⟩
    · rw [if_neg hdot]
      have hn1 : f.Name ≠ "." := fun h => hdot (Or.inl h)
      have hn2 : f.Name ≠ ".." := fun h => hdot (Or.inr h)
      unfold visitEntry
      by_cases hdir : f.Attr.Typ = .TypeDirectory
      · obtain ⟨k, hk⟩ := ih ⟨st.pending ++ [f.Inode], st.todo, st.closed, st.polls + 1, st.listed⟩
        have h1 : isSubdir f = true := (isSubdir_iff f).2 ⟨hn1, hn2, hdir⟩
        have h2 : emits time f = false := by simp [emits, hdir]
        refine ⟨1 + k, ?_⟩
        rw [if_pos hdir]
        simp only [hc, Bool.false_eq_true, if_false]
        rw [hk]
        simp [List.filter_cons, h1, h2, Nat.add_assoc]
      · rw [if_neg hdir]
        have h1 : isSubdir f = false := by simp [isSubdir, hdir]
        by_cases hsym : f.Attr.Typ = .TypeSymlink
        · obtain ⟨k, hk⟩ := ih ⟨st.pending, st.todo, st.closed, st.polls + 1, st.listed⟩
          have h2 : emits time f = false := by simp [emits, hsym]
          refine ⟨1 + k, ?_⟩
          rw [if_neg (by simpa using hsym)]
          simp only [hc, Bool.false_eq_true, if_false]
          rw [hk]
          simp [List.filter_cons, h1, h2, Nat.add_assoc]
        · rw [if_pos hsym]
          by_cases hold : f.Attr.Ctime < time
          · obtain ⟨k, hk⟩ := ih st
            have h2 : emits time f = false := by
              cases he : emits time f with
              | false => rfl
              | true =>
                have := ((emits_iff time f).1 he).2.2.2.2
                omega
            refine ⟨k, ?_⟩
            rw [if_pos hold]
            simp only
            rw [hk]
            simp [List.filter_cons, h1, h2]
          · obtain ⟨k, hk⟩ := ih ⟨st.pending, st.todo ++ [taskOf env f], st.closed, st.polls + 1, st.listed⟩
            have h2 : emits time f = true :=
              (emits_iff time f).2 ⟨hn1, hn2, hdir, hsym, by omega⟩
            refine ⟨1 + k, ?_⟩
            rw [if_neg hold]
            simp only [hc, Bool.false_eq_true, if_false]
            rw [hk]
            simp [List.filter_cons, h1, h2, Nat.add_assoc]

theorem walkLoop_step (env : WalkEnv) (time : Int) (hc : ∀ k, env.Canceled k = false)
    (hl : ∀ d, (env.Readdir d).1 = 0) (st : WalkState) (d : Ino)
    (h : st.pending.getLast? = some d) :
    ∃ k, ∀ fuel, walkLoop env time (fuel + 1) st = walkLoop env time fuel (afterListing env time st d k) := by
  obtain ⟨k, hk⟩ := entryLoop_uncancelled env time hc (env.Readdir d).2
    { st with pending := st.pending.dropLast, listed := st.listed ++ [d] }
  refine ⟨k, fun fuel => ?_⟩
  conv_lhs => unfold walkLoop
  rw [h]
  simp only
  rw [if_pos (hl d), hk]
  rfl

theorem walkLoop_done (env : WalkEnv) (time : Int) (st : WalkState) (fuel : Nat)
    (h : st.pending.getLast? = none) :
    walkLoop env time (fuel + 1) st = some { st with closed := st.closed + 1 } := by
  conv_lhs => unfold walkLoop
  rw [h]

theorem walkInv_step (env : WalkEnv) (time : Int) (root : Ino) (st : WalkState) (d : Ino) (k : Nat)
    (h : st.pending.getLast? = some d) (hinv : WalkInv env time root st) :
    WalkInv env time root (afterListing env time st d k) := by
  obtain ⟨h1, h2, h3, h4⟩ := hinv
  have hp : st.pending = st.pending.dropLast ++ [d] :=
    (List.dropLast_append_getLast? d h).symm
  have hmem : ∀ x, x ∈ st.pending → x ∈ st.pending.dropLast ∨ x = d := by
    intro x hx
    rw [hp] at hx
    simpa using hx
  refine ⟨h1, ?_, ?_, ?_⟩
  · simp only [afterListing, entriesOf, List.flatMap_append, List.flatMap_cons, List.flatMap_nil,
      List.append_nil, List.filter_append, List.map_append]
    rw [h2]
    rfl
  · intro x hx e he hsub
    simp only [afterListing, List.mem_append, List.mem_singleton] at hx ⊢
    rcases hx with hx | rfl
    · rcases h3 x hx e he hsub with hl | hpend
      · exact Or.inl (Or.inl hl)
      · rcases hmem _ hpend with hd | hd
        · exact Or.inr (Or.inl hd)
        · exact Or.inl (Or.inr hd)
    · right; right
      exact List.mem_map.2 ⟨e, List.mem_filter.2 ⟨he, hsub⟩, rfl⟩
  · simp only [afterListing, List.mem_append, List.mem_singleton]
    rcases h4 with hl | hpend
    · exact Or.inl (Or.inl hl)
    · rcases hmem _ hpend with hd | hd
      · exact Or.inr (Or.inl hd)
      · exact Or.inl (Or.inr hd)

theorem walkLoop_inv (env : WalkEnv) (time : Int) (root : Ino)
    (hc : ∀ k, env.Canceled k = false) (hl : ∀ d, (env.Readdir d).1 = 0) :
    ∀ fuel st st', WalkInv env time root st → walkLoop env time fuel st = some st' →
      st'.closed = 1 ∧ st'.pending = [] ∧
      st'.todo = ((entriesOf env st'.listed).filter (emits time)).map (taskOf env) ∧
      root ∈ st'.listed ∧
      (∀ d ∈ st'.listed, ∀ e ∈ (env.Readdir d).2, isSubdir e = true → e.Inode ∈ st'.listed) := by
  intro fuel
  induction fuel with
  | zero => intro st st' _ h; simp [walkLoop] at h
  | succ fuel ih =>
    intro st st' hinv h
    cases hlast : st.pending.getLast? with
    | none =>
      rw [walkLoop_done env time st fuel hlast] at h
      have hst : st' = { st with closed := st.closed + 1 } := (Option.some.inj h).symm
      have hnil : st.pending = [] := List.getLast?_eq_none_iff.mp hlast
      obtain ⟨h1, h2, h3, h4⟩ := hinv
      subst hst
      refine ⟨by simp [h1], hnil, h2, ?_, ?_⟩
      · rcases h4 with h4 | h4
        · exact h4
        · rw [hnil] at h4; simp at h4
      · intro d hd e he hsub
        rcases h3 d hd e he hsub with h5 | h5
        · exact h5
        · rw [hnil] at h5; simp at h5
    | some d =>
      obtain ⟨k, hk⟩ := walkLoop_step env time hc hl st d hlast
      rw [hk fuel] at h
      exact ih _ st' (walkInv_step env time root st d k hlast hinv) h

theorem walkLoop_drainList (env : WalkEnv) (time : Int) (cs : List Ino)
    (hcs : ∀ c ∈ cs, ∀ st : WalkState, st.pending.getLast? = some c →
      ∃ n st', (∀ fuel, walkLoop env time (fuel + n) st = walkLoop env time fuel st') ∧
        st'.pending = st.pending.dropLast) :
    ∀ (ps : List Ino) (st : WalkState), st.pending = ps ++ cs →
      ∃ n st', (∀ fuel, walkLoop env time (fuel + n) st = walkLoop env time fuel st') ∧
        st'.pending = ps := by
  induction cs using List.reverseRecOn with
  | nil =>
    intro ps st h
    exact ⟨0, st, fun _ => rfl, by simpa using h⟩
  | append_singleton cs c ih =>
    intro ps st h
    have hlast : st.pending.getLast? = some c := by
      rw [h, ← List.append_assoc, List.getLast?_append]
      simp
    obtain ⟨n1, st1, hrun1, hp1⟩ := hcs c (by simp) st hlast
    have hp1' : st1.pending = ps ++ cs := by
      rw [hp1, h, ← List.append_assoc, List.dropLast_concat]
    obtain ⟨n2, st2, hrun2, hp2⟩ := ih (fun x hx => hcs x (by simp [hx])) ps st1 hp1'
    refine ⟨n2 + n1, st2, fun fuel => ?_, hp2⟩
    rw [← Nat.add_assoc, hrun1, hrun2]

theorem walkLoop_drain (env : WalkEnv) (time : Int) (hc : ∀ k, env.Canceled k = false)
    (hl : ∀ d, (env.Readdir d).1 = 0) (rank : Ino → Nat)
    (hrank : ∀ d, ∀ e ∈ (env.Readdir d).2, isSubdir e = true → rank e.Inode < rank d) :
    ∀ r d, rank d < r → ∀ st : WalkState, st.pending.getLast? = some d →
      ∃ n st', (∀ fuel, walkLoop env time (fuel + n) st = walkLoop env time fuel st') ∧
        st'.pending = st.pending.dropLast := by
  intro r
  induction r with
  | zero => intro d hd; omega
  | succ r ih =>
    intro d hd st hlast
    obtain ⟨k, hk⟩ := walkLoop_step env time hc hl st d hlast
    obtain ⟨n, st', hrun, hp⟩ := walkLoop_drainList env time
      (((env.Readdir d).2.filter isSubdir).map Entry.Inode)
      (fun c hc' st2 h2 => by
        obtain ⟨e, he, rfl⟩ := List.mem_map.1 hc'
        have he' := List.mem_filter.1 he
        exact ih e.Inode (by have := hrank d e he'.1 he'.2; omega) st2 h2)
      st.pending.dropLast (afterListing env time st d k) rfl
    refine ⟨n + 1, st', fun fuel => ?_, hp⟩
    rw [← Nat.add_assoc, hk, hrun]

/-- C6 (amended): in an uncancelled walk whose listings all succeed, the tasks
sent are exactly those of the listed entries that are not `.` or `..`, are
neither a directory nor a symlink, and have a ctime at or after the cutoff
(an entry at the cutoff is sent, an older one is not); the root and every
subdirectory entry of a listed directory are listed; and the walk returns
when the directory tree is well-founded. -/
theorem walkDir_emits (env : WalkEnv) (root : Ino) (time : Int)
    (hc : ∀ k, env.Canceled k = false) (hl : ∀ d, (env.Readdir d).1 = 0) :
    (∀ fuel st, walkDir env root time fuel = some st →
      st.todo = ((entriesOf env st.listed).filter (emits time)).map (taskOf env) ∧
      root ∈ st.listed ∧
      (∀ d ∈ st.listed, ∀ e ∈ (env.Readdir d).2, isSubdir e = true → e.Inode ∈ st.listed)) ∧
    (∀ e, emits time e = true ↔ (e.Name ≠ "." ∧ e.Name ≠ ".." ∧
      e.Attr.Typ ≠ .TypeDirectory ∧ e.Attr.Typ ≠ .TypeSymlink ∧ time ≤ e.Attr.Ctime)) ∧
    (∀ e, isSubdir e = true ↔ (e.Name ≠ "." ∧ e.Name ≠ ".." ∧ e.Attr.Typ = .TypeDirectory)) ∧
    ((∃ rank : Ino → Nat, ∀ d, ∀ e ∈ (env.Readdir d).2, isSubdir e = true →
        rank e.Inode < rank d) →
      ∃ fuel st, walkDir env root time fuel = some st) := by
  refine ⟨fun fuel st h => ?_, emits_iff time, isSubdir_iff, ?_⟩
  · have hinv : WalkInv env time root ⟨[root], [], 0, 0, []⟩ :=
      ⟨rfl, rfl, by simp, Or.inr (by simp)⟩
    have := walkLoop_inv env time root hc hl fuel _ st hinv h
    exact ⟨this.2.2.1, this.2.2.2.1, this.2.2.2.2⟩
  · rintro ⟨rank, hrank⟩
    obtain ⟨n, st', hrun, hp⟩ := walkLoop_drain env time hc hl rank hrank (rank root + 1) root
      (by omega) ⟨[root], [], 0, 0, []⟩ rfl
    refine ⟨1 + n, { st' with closed := st'.closed + 1 }, ?_⟩
    unfold walkDir
    rw [hrun 1]
    exact walkLoop_done env time st' 0 (by rw [hp]; rfl)

/-- The uncancelled walk of `demoTree` sends the tasks of `new`, `pipe` and `deep`. -/
theorem walkDir_emits_witness :
    walkDir (demoTree false) 1 100 5 = some demoWalk ∧
    demoWalk.todo =
      ((entriesOf (demoTree false) demoWalk.listed).filter (emits 100)).map
        (taskOf (demoTree false)) ∧
    (1 : Ino) ∈ demoWalk.listed ∧
    (∀ d ∈ demoWalk.listed, ∀ e ∈ ((demoTree false).Readdir d).2, isSubdir e = true →
      e.Inode ∈ demoWalk.listed) :=
  ⟨by decide, (walkDir_emits (demoTree false) 1 100 (fun _ => rfl)
    (fun d => by unfold demoTree; simp only; split_ifs <;> rfl)).1 5 demoWalk (by decide)⟩

/-- C6 (counterexample): the FIFO entry `pipe` of the root, which is not a
regular file, is sent as a task. -/
theorem fifo_entry_emitted :
    (⟨6, "pipe", ⟨.TypeFIFO, 100, 0⟩⟩ : Entry) ∈ ((demoTree false).Readdir 1).2 ∧
    (∀ k, (demoTree false).Canceled k = false) ∧
    walkDir (demoTree false) 1 100 5 = some demoWalk ∧
    taskOf (demoTree false) ⟨6, "pipe", ⟨.TypeFIFO, 100, 0⟩⟩ ∈ demoWalk.todo := by
  refine ⟨by decide, fun _ => rfl, by decide, by decide⟩

/-- C7 (failing input): when the context is cancelled, `walkDir` returns after
the first polled entry with the directory `2` still pending and without having
closed `todo`. -/
theorem cancelled_walk_leaves_open :
    walkDir (demoTree true) 1 100 5 = some ⟨[2], [], 0, 1, [1]⟩ ∧
    (∀ st, walkDir (demoTree true) 1 100 5 = some st → st.closed = 0) ∧
    (∀ st, walkDir (demoTree false) 1 100 5 = some st → st.closed = 1) := by
  refine ⟨by decide, fun st h => ?_, fun st h => ?_⟩
  · have h0 : walkDir (demoTree true) 1 100 5 = some ⟨[2], [], 0, 1, [1]⟩ := by decide
    rw [h0] at h
    rw [← Option.some.inj h]
  · have h0 : walkDir (demoTree false) 1 100 5 = some demoWalk := by decide
    rw [h0] at h
    rw [← Option.some.inj h]
    rfl

/-! ## The report -/

theorem charsLe_cons (x y : Char) (xs ys : List Char) :
    charsLe (x :: xs) (y :: ys) = true ↔ x < y ∨ (x = y ∧ charsLe xs ys = true) := by
  show (if x < y then true else if y < x then false else charsLe xs ys) = true ↔ _
  rcases lt_trichotomy x y with h | h | h
  · simp [h]
  · subst h; simp
  · simp [h, not_lt_of_gt h, ne_of_gt h]

theorem charsLe_total : ∀ a b : List Char, charsLe a b = true ∨ charsLe b a = true := by
  intro a
  induction a with
  | nil => intro b; left; rfl
  | cons x xs ih =>
    intro b
    cases b with
    | nil => right; rfl
    | cons y ys =>
      rw [charsLe_cons, charsLe_cons]
      rcases lt_trichotomy x y with h | h | h
      · exact Or.inl (Or.inl h)
      · rcases ih ys with h1 | h1
        · exact Or.inl (Or.inr ⟨h, h1⟩)
        · exact Or.inr (Or.inr ⟨h.symm, h1⟩)
      · exact Or.inr (Or.inl h)

theorem charsLe_trans : ∀ a b c : List Char, charsLe a b = true → charsLe b c = true →
    charsLe a c = true := by
  intro a
  induction a with
  | nil => intro b c _ _; rfl
  | cons x xs ih =>
    intro b c hab hbc
    cases b with
    | nil => simp [charsLe] at hab
    | cons y ys =>
      cases c with
      | nil => simp [charsLe] at hbc
      | cons z zs =>
        rw [charsLe_cons] at hab hbc ⊢
        rcases hab with h1 | ⟨rfl, h1⟩
        · rcases hbc with h2 | ⟨rfl, _⟩
          · exact Or.inl (lt_trans h1 h2)
          · exact Or.inl h1
        · rcases hbc with h2 | ⟨rfl, h2⟩
          · exact Or.inl h2
          · exact Or.inr ⟨rfl, ih ys zs h1 h2⟩

theorem charsLe_antisymm : ∀ a b : List Char, charsLe a b = true → charsLe b a = true → a = b := by
  intro a
  induction a with
  | nil =>
    intro b _ hba
    cases b with
    | nil => rfl
    | cons y ys => simp [charsLe] at hba
  | cons x xs ih =>
    intro b hab hba
    cases b with
    | nil => simp [charsLe] at hab
    | cons y ys =>
      rw [charsLe_cons] at hab hba
      rcases hab with h1 | ⟨rfl, h1⟩
      · rcases hba with h2 | ⟨rfl, _⟩
        · exact absurd h2 (not_lt_of_gt h1)
        · exact absurd h1 (lt_irrefl _)
      · rcases hba with h2 | ⟨_, h2⟩
        · exact absurd h2 (lt_irrefl _)
        · rw [ih ys h1 h2]

theorem strLe_total : IsTotal String StrLe :=
  ⟨fun a b => charsLe_total a.data b.data⟩

theorem strLe_trans : IsTrans String StrLe :=
  ⟨fun a b c => charsLe_trans a.data b.data c.data⟩

theorem strLe_antisymm : IsAntisymm String StrLe :=
  ⟨fun a b hab hba => String.ext (charsLe_antisymm a.data b.data hab hba)⟩

theorem sortStrings_sorted (l : List String) : (sortStrings l).Sorted StrLe :=
  @List.sorted_insertionSort _ StrLe _ strLe_total strLe_trans l

theorem sortStrings_perm (l : List String) : (sortStrings l).Perm l :=
  List.perm_insertionSort StrLe l

theorem sortStrings_of_perm (l₁ l₂ : List String) (h : l₁.Perm l₂) :
    sortStrings l₁ = sortStrings l₂ :=
  @List.eq_of_perm_of_sorted _ StrLe strLe_antisymm _ _
    (((sortStrings_perm l₁).trans h).trans (sortStrings_perm l₂).symm)
    (sortStrings_sorted l₁) (sortStrings_sorted l₂)

theorem fmtD_natCast (n : Nat) : fmtD (n : Int) = fmtU n := by
  unfold fmtD fmtU
  rw [if_neg (by omega)]
  simp

theorem splitOn_no_sep (c : Char) : ∀ w : Str, c ∉ w → splitOn c w = [w] := by
  intro w
  induction w with
  | nil => intro _; rfl
  | cons x w ih =>
    intro h
    have hx : x ≠ c := fun e => h (e ▸ List.mem_cons_self _ _)
    have hw : c ∉ w := fun e => h (List.mem_cons_of_mem _ e)
    rw [splitOn, if_neg hx, ih hw]

theorem splitOn_append_sep (c : Char) (r : Str) :
    ∀ w : Str, c ∉ w → splitOn c (w ++ c :: r) = w :: splitOn c r := by
  intro w
  induction w with
  | nil => intro _; simp [splitOn]
  | cons x w ih =>
    intro h
    have hx : x ≠ c := fun e => h (e ▸ List.mem_cons_self _ _)
    have hw : c ∉ w := fun e => h (List.mem_cons_of_mem _ e)
    rw [List.cons_append, splitOn, if_neg hx, ih hw]

theorem splitOn_joinWith (c : Char) :
    ∀ cs : List Str, cs ≠ [] → (∀ w ∈ cs, c ∉ w) → splitOn c (joinWith c cs) = cs := by
  intro cs
  induction cs with
  | nil => intro h; exact absurd rfl h
  | cons w rest ih =>
    intro _ hfree
    cases rest with
    | nil => exact splitOn_no_sep c w (hfree w (List.mem_cons_self _ _))
    | cons v ws =>
      rw [joinWith, splitOn_append_sep c _ w (hfree w (List.mem_cons_self _ _)),
        ih (by simp) (fun x hx => hfree x (List.mem_cons_of_mem _ hx))]

theorem joinWith_append (c : Char) (B : List Str) (hB : B ≠ []) :
    ∀ A : List Str, A ≠ [] → joinWith c (A ++ B) = joinWith c A ++ c :: joinWith c B := by
  intro A
  induction A with
  | nil => intro h; exact absurd rfl h
  | cons w rest ih =>
    intro _
    cases rest with
    | nil =>
      cases B with
      | nil => exact absurd rfl hB
      | cons b bs => rfl
    | cons v ws =>
      have := ih (by simp)
      rw [List.cons_append, List.cons_append] at *
      rw [joinWith, this, joinWith]
      simp

theorem sep_mem_joinWith (c : Char) (w v : Str) (ws : List Str) :
    c ∈ joinWith c (w :: v :: ws) := by
  rw [joinWith]
  simp

theorem splitOn_sep_free (c : Char) : ∀ (p : Str), ∀ w ∈ splitOn c p, c ∉ w := by
  intro p
  induction p with
  | nil => intro w hw; simp [splitOn] at hw; simp [hw]
  | cons x xs ih =>
    intro w hw
    rw [splitOn] at hw
    by_cases hx : x = c
    · rw [if_pos hx] at hw
      rcases List.mem_cons.1 hw with rfl | h
      · simp
      · exact ih w h
    · rw [if_neg hx] at hw
      cases hs : splitOn c xs with
      | nil =>
        rw [hs] at hw
        simp only [List.mem_singleton] at hw
        subst hw
        simpa using fun h => hx h.symm
      | cons u us =>
        rw [hs] at hw ih
        rcases List.mem_cons.1 hw with rfl | h
        · intro hc
          rcases List.mem_cons.1 hc with e | e
          · exact hx e.symm
          · exact ih u (List.mem_cons_self _ _) e
        · exact ih w (List.mem_cons_of_mem _ h)

theorem joinWith_ends : ∀ cs : List Str, cs ≠ [] → GoodElems cs →
    joinWith '/' cs ≠ [] ∧ (joinWith '/' cs).head? ≠ some '/' ∧
      (joinWith '/' cs).getLast? ≠ some '/' := by
  intro cs
  induction cs with
  | nil => intro h; exact absurd rfl h
  | cons w rest ih =>
    intro _ hgood
    obtain ⟨hw0, hw1⟩ := hgood w (List.mem_cons_self _ _)
    have hhead : ∀ r : Str, (w ++ r).head? ≠ some '/' := by
      intro r
      cases w with
      | nil => exact absurd rfl hw0
      | cons x xs =>
        simp only [List.cons_append, List.head?_cons, ne_eq, Option.some.injEq]
        intro e
        exact hw1 (e ▸ List.mem_cons_self _ _)
    cases rest with
    | nil =>
      refine ⟨hw0, by simpa using hhead [], ?_⟩
      rw [joinWith]
      intro e
      exact hw1 (List.mem_of_getLast?_eq_some e)
    | cons v ws =>
      obtain ⟨h1, _, h3⟩ := ih (by simp) (fun x hx => hgood x (List.mem_cons_of_mem _ hx))
      rw [joinWith]
      refine ⟨by simp, hhead _, ?_⟩
      rw [List.getLast?_append]
      cases hj : joinWith '/' (v :: ws) with
      | nil => exact absurd hj h1
      | cons y ys =>
        rw [hj] at h3
        rw [List.getLast?_cons_cons]
        cases hl : (y :: ys).getLast? with
        | none => simp at hl
        | some z =>
          rw [hl] at h3
          simpa using h3

theorem trimSlash_id (p : Str) (h1 : p.head? ≠ some '/') (h2 : p.getLast? ≠ some '/') :
    trimSlash p = p := by
  unfold trimSlash
  have hd : ∀ q : Str, q.head? ≠ some '/' → q.dropWhile (· == '/') = q := by
    intro q hq
    cases q with
    | nil => rfl
    | cons x xs =>
      have hx : x ≠ '/' := by simpa using hq
      rw [List.dropWhile_cons_of_neg (by simpa using hx)]
  rw [hd p h1, hd p.reverse (by rw [List.head?_reverse]; exact h2), List.reverse_reverse]

theorem trimSlash_joinWith (cs : List Str) (h0 : cs ≠ []) (hgood : GoodElems cs) :
    trimSlash (joinWith '/' cs) = joinWith '/' cs :=
  trimSlash_id _ (joinWith_ends cs h0 hgood).2.1 (joinWith_ends cs h0 hgood).2.2

theorem parseUint_none_of_slash (q : Str) (h : '/' ∈ q) : parseUint q = none := by
  unfold parseUint
  split
  · rfl
  · have hall : q.all Char.isDigit = false := by
      rw [List.all_eq_false]
      exact ⟨'/', h, by decide⟩
    rw [hall]
    rfl

theorem inodeRef_none_of_slash (p : Str) (h : '/' ∈ p) : inodeRef p = none := by
  unfold inodeRef hasPrefix
  split
  · rename_i hpre
    obtain ⟨q, rfl⟩ := List.isPrefixOf_iff_prefix.mp hpre
    rw [List.drop_left]
    apply parseUint_none_of_slash
    rcases List.mem_append.1 h with h1 | h1
    · exact absurd h1 (by decide)
    · exact h1
  · rfl

theorem cleanStep_good (r : Bool) (out : List Str) (c : Str) (hout : GoodElems out)
    (hc : '/' ∉ c) : GoodElems (cleanStep r out c) := by
  have happ : c ≠ [] → GoodElems (out ++ [c]) := by
    intro hne x hx
    rcases List.mem_append.1 hx with h | h
    · exact hout x h
    · rw [List.mem_singleton.1 h]; exact ⟨hne, hc⟩
  have hdrop : GoodElems out.dropLast := fun x hx => hout x (List.mem_of_mem_dropLast hx)
  unfold cleanStep
  by_cases h1 : c = [] ∨ c = ['.']
  · rw [if_pos h1]; exact hout
  · rw [if_neg h1]
    have hne : c ≠ [] := fun e => h1 (Or.inl e)
    split
    · split
      · split
        · exact hout
        · exact happ hne
      · split
        · split
          · exact hout
          · exact happ hne
        · exact hdrop
    · exact happ hne

theorem foldl_cleanStep_good (r : Bool) : ∀ (cs out : List Str), GoodElems out →
    (∀ c ∈ cs, '/' ∉ c) → GoodElems (cs.foldl (cleanStep r) out) := by
  intro cs
  induction cs with
  | nil => intro out h _; exact h
  | cons c cs ih =>
    intro out h hfree
    rw [List.foldl_cons]
    exact ih _ (cleanStep_good r out c h (hfree c (List.mem_cons_self _ _)))
      (fun x hx => hfree x (List.mem_cons_of_mem _ hx))

theorem head?_of_hasPrefix_slash (t : Str) (ht : hasPrefix t ['/'] = false) :
    t.head? ≠ some '/' := by
  cases t with
  | nil => simp
  | cons x xs =>
    simp only [hasPrefix, List.isPrefixOf, Bool.and_true, beq_eq_false_iff_ne, ne_eq] at ht
    simpa using fun e => ht e.symm

/-- The path that `path.Join` builds from a prefix of well-formed elements and
a relative target is a slash-joined list of well-formed elements. -/
theorem pathJoin_elems (pre : List Str) (t : Str) (hpre : GoodElems pre)
    (ht : hasPrefix t ['/'] = false) (hne : pre ≠ [] ∨ t ≠ []) :
    ∃ tcs, tcs ≠ [] ∧ GoodElems tcs ∧ pathJoin (joinWith '/' pre) t = joinWith '/' tcs := by
  have hclean : ∀ q : Str, q ≠ [] → q.head? ≠ some '/' →
      ∃ tcs, tcs ≠ [] ∧ GoodElems tcs ∧ pathClean q = joinWith '/' tcs := by
    intro q hq0 hq1
    have hroot : (q.head? == some '/') = false := by simpa using hq1
    have hgood := foldl_cleanStep_good false (splitOn '/' q) [] (by intro c hc; simp at hc)
      (splitOn_sep_free '/' q)
    unfold pathClean
    rw [if_neg hq0]
    simp only [hroot, Bool.false_eq_true, if_false]
    by_cases hout : (splitOn '/' q).foldl (cleanStep false) [] = []
    · refine ⟨[['.']], by simp, ?_, by rw [if_pos hout]; rfl⟩
      intro c hc
      rw [List.mem_singleton.1 hc]
      decide
    · exact ⟨_, hout, hgood, by rw [if_neg hout]⟩
  have ht1 := head?_of_hasPrefix_slash t ht
  unfold pathJoin
  by_cases hp : pre = []
  · subst hp
    have ht0 : t ≠ [] := by
      rcases hne with h | h
      · exact absurd rfl h
      · exact h
    simp only [joinWith, true_and, if_neg ht0, if_true]
    exact hclean t ht0 ht1
  · obtain ⟨ha0, ha1, _⟩ := joinWith_ends pre hp hpre
    rw [if_neg (fun h => ha0 h.1), if_neg ha0]
    by_cases hb : t = []
    · rw [if_pos hb]
      exact hclean _ ha0 ha1
    · rw [if_neg hb]
      refine hclean _ (by simp [ha0]) ?_
      cases hj : joinWith '/' pre with
      | nil => exact absurd hj ha0
      | cons x xs =>
        rw [hj] at ha1
        simpa using ha1

/-! ### The loop over the path elements -/

theorem followLink_cases (env : MetaEnv) (recur : Str → Ino → Attr → Option Res) (ss : List Str)
    (i : Nat) (lnk : Ino) (la : Attr) :
    followLink env recur ss i lnk la = .stuck ∨
    (∃ r, followLink env recur ss i lnk la = .ret r ∧ r.errno ≠ 0) ∨
    (∃ k a, followLink env recur ss i lnk la = .next k a) := by
  unfold followLink
  split
  · rename_i h; exact Or.inr (Or.inl ⟨_, rfl, h⟩)
  · split
    · exact Or.inr (Or.inl ⟨_, rfl, (by decide : ENOTSUP ≠ 0)⟩)
    · split
      · exact Or.inl rfl
      · split
        · rename_i h; exact Or.inr (Or.inl ⟨_, rfl, h⟩)
        · exact Or.inr (Or.inr ⟨_, _, rfl⟩)

theorem descend_cases (env : MetaEnv) (recur : Str → Ino → Attr → Option Res) (ss : List Str)
    (i : Nat) (name : Str) (parent ino : Ino) (attr : Attr) :
    descend env recur ss i name parent ino attr = .stuck ∨
    (∃ r, descend env recur ss i name parent ino attr = .ret r ∧ r.errno ≠ 0) ∨
    (∃ k a, descend env recur ss i name parent ino attr = .next k a) := by
  unfold descend
  split
  · rename_i h; exact Or.inr (Or.inl ⟨_, rfl, h⟩)
  · split
    · rename_i h; exact Or.inr (Or.inl ⟨_, rfl, h⟩)
    · split
      · exact followLink_cases env recur ss i _ _
      · exact Or.inr (Or.inr ⟨_, _, rfl⟩)

theorem visit_special (env : MetaEnv) (recur : Str → Ino → Attr → Option Res) (ss : List Str)
    (i : Nat) (name : Str) (parent ino : Ino) (attr : Attr) (k : Ino)
    (h : visit env recur ss i name parent ino attr = .special k) : i = ss.length - 1 := by
  unfold visit at h
  split at h
  · simp at h
  · split at h
    · rename_i h2; exact h2.2.1
    · rcases descend_cases env recur ss i name parent ino attr with h' | ⟨r, h', _⟩ | ⟨k', a, h'⟩ <;>
        rw [h'] at h <;> simp at h

theorem visit_skip (env : MetaEnv) (recur : Str → Ino → Attr → Option Res) (ss : List Str)
    (i : Nat) (name : Str) (parent ino : Ino) (attr : Attr)
    (h : visit env recur ss i name parent ino attr = .skip) : name = [] := by
  unfold visit at h
  split at h
  · rename_i h1; exact List.length_eq_zero.mp h1
  · split at h
    · simp at h
    · rcases descend_cases env recur ss i name parent ino attr with h' | ⟨r, h', _⟩ | ⟨k', a, h'⟩ <;>
        rw [h'] at h <;> simp at h

theorem visit_ret (env : MetaEnv) (recur : Str → Ino → Attr → Option Res) (ss : List Str)
    (i : Nat) (name : Str) (parent ino : Ino) (attr : Attr) (r : Res)
    (h : visit env recur ss i name parent ino attr = .ret r) : r.errno ≠ 0 := by
  unfold visit at h
  split at h
  · simp at h
  · split at h
    · simp at h
    · rcases descend_cases env recur ss i name parent ino attr with h' | ⟨r', h', hr⟩ | ⟨k', a, h'⟩
      · rw [h'] at h; simp at h
      · rw [h'] at h
        simp only [VisitOut.ret.injEq] at h
        exact h ▸ hr
      · rw [h'] at h; simp at h

theorem walkFrom_cons (env : MetaEnv) (recur : Str → Ino → Attr → Option Res) (ss : List Str)
    (i : Nat) (name : Str) (rest : List Str) (parent ino : Ino) (attr : Attr) :
    walkFrom env recur ss i (name :: rest) parent ino attr =
      match visit env recur ss i name parent ino attr with
      | .skip => walkFrom env recur ss (i + 1) rest parent ino attr
      | .special k => some (.fin k k attr true)
      | .ret r => some (.ret r)
      | .next k a => walkFrom env recur ss (i + 1) rest k k a
      | .stuck => none := by
  rw [walkFrom]

theorem walkFrom_ret (env : MetaEnv) (recur : Str → Ino → Attr → Option Res) (ss : List Str) :
    ∀ (A : List Str) (i : Nat) (parent ino : Ino) (attr : Attr) (r : Res),
      walkFrom env recur ss i A parent ino attr = some (.ret r) → r.errno ≠ 0 := by
  intro A
  induction A with
  | nil => intro i parent ino attr r h; simp [walkFrom] at h
  | cons name A ih =>
    intro i parent ino attr r h
    rw [walkFrom_cons] at h
    cases hv : visit env recur ss i name parent ino attr with
    | skip => rw [hv] at h; exact ih _ _ _ _ r h
    | special k => rw [hv] at h; simp at h
    | ret r' =>
      rw [hv] at h
      simp only [Option.some.injEq, WalkOut.ret.injEq] at h
      subst h
      exact visit_ret env recur ss i name parent ino attr r' hv
    | next k a => rw [hv] at h; exact ih _ _ _ _ r h
    | stuck => rw [hv] at h; simp at h

theorem walkFrom_append (env : MetaEnv) (recur : Str → Ino → Attr → Option Res)
    (ss B : List Str) :
    ∀ (A : List Str) (i : Nat) (parent ino : Ino) (attr : Attr), i + A.length < ss.length →
      walkFrom env recur ss i (A ++ B) parent ino attr =
        andThen (walkFrom env recur ss i A parent ino attr)
          (walkFrom env recur ss (i + A.length) B) := by
  intro A
  induction A with
  | nil => intro i parent ino attr _; simp [walkFrom, andThen]
  | cons name A ih =>
    intro i parent ino attr hlen
    have hlen' : i + 1 + A.length < ss.length := by
      simp only [List.length_cons] at hlen; omega
    have hidx : i + 1 + A.length = i + (name :: A).length := by
      simp only [List.length_cons]; omega
    rw [List.cons_append, walkFrom_cons, walkFrom_cons]
    cases hv : visit env recur ss i name parent ino attr with
    | skip => simp only; rw [ih _ _ _ _ hlen', hidx]
    | special k =>
      have := visit_special env recur ss i name parent ino attr k hv
      simp only [List.length_cons] at hlen
      omega
    | ret r => rfl
    | next k a => simp only; rw [ih _ _ _ _ hlen', hidx]
    | stuck => rfl

theorem walkFrom_fin (env : MetaEnv) (recur : Str → Ino → Attr → Option Res) (ss : List Str) :
    ∀ (A : List Str) (i : Nat) (parent ino : Ino) (attr : Attr) (p' i' : Ino) (a' : Attr)
      (d : Bool), walkFrom env recur ss i A parent ino attr = some (.fin p' i' a' d) →
      (parent = ino ∨ ∃ name A', A = name :: A' ∧ name ≠ []) → p' = i' := by
  intro A
  induction A with
  | nil =>
    intro i parent ino attr p' i' a' d h hc
    simp only [walkFrom, Option.some.injEq, WalkOut.fin.injEq] at h
    rcases hc with hc | ⟨_, _, hc, _⟩
    · rw [← h.1, ← h.2.1, hc]
    · simp at hc
  | cons name A ih =>
    intro i parent ino attr p' i' a' d h hc
    rw [walkFrom_cons] at h
    cases hv : visit env recur ss i name parent ino attr with
    | skip =>
      rw [hv] at h
      have hempty : name = [] := visit_skip env recur ss i name parent ino attr hv
      rcases hc with hc | ⟨n, A', hc, hn⟩
      · exact ih _ _ _ _ _ _ _ _ h (Or.inl hc)
      · simp only [List.cons.injEq] at hc
        exact absurd (hc.1 ▸ hempty) hn
    | special k =>
      rw [hv] at h
      simp only [Option.some.injEq, WalkOut.fin.injEq] at h
      rw [← h.1, ← h.2.1]
    | ret r => rw [hv] at h; simp at h
    | next k a => rw [hv] at h; exact ih _ _ _ _ _ _ _ _ h (Or.inl rfl)
    | stuck => rw [hv] at h; simp at h

/-! ### The same elements in another path -/

theorem followLink_take (env : MetaEnv) (recur : Str → Ino → Attr → Option Res)
    (ss ss' : List Str) (i : Nat) (lnk : Ino) (la : Attr) (h : ss.take i = ss'.take i) :
    followLink env recur ss i lnk la = followLink env recur ss' i lnk la := by
  unfold followLink
  rw [h]

theorem descend_take (env : MetaEnv) (recur : Str → Ino → Attr → Option Res)
    (ss ss' : List Str) (i : Nat) (name : Str) (parent ino : Ino) (attr : Attr)
    (h : ss.take i = ss'.take i) :
    descend env recur ss i name parent ino attr = descend env recur ss' i name parent ino attr := by
  unfold descend
  rw [followLink_take env recur ss ss' i _ _ h]

theorem visit_ctx (env : MetaEnv) (recur : Str → Ino → Attr → Option Res)
    (tcs rest : List Str) (i : Nat) (name : Str) (parent ino : Ino) (attr : Attr)
    (hi : i < tcs.length) (hrest : rest ≠ [])
    (hsp : i = tcs.length - 1 → env.IsSpecialName name = false) :
    visit env recur tcs i name parent ino attr =
      visit env recur (tcs ++ rest) i name parent ino attr := by
  have hlen : 0 < rest.length := List.length_pos.mpr hrest
  unfold visit
  have h1 : ¬ (parent = env.RootInode ∧ i = tcs.length - 1 ∧ env.IsSpecialName name = true) := by
    rintro ⟨_, h, hs⟩
    rw [hsp h] at hs
    exact absurd hs (by decide)
  have h2 : ¬ (parent = env.RootInode ∧ i = (tcs ++ rest).length - 1 ∧
      env.IsSpecialName name = true) := by
    rintro ⟨_, h, _⟩
    rw [List.length_append] at h
    omega
  rw [if_neg h1, if_neg h2, descend_take env recur tcs (tcs ++ rest) i name parent ino attr
    (List.take_append_of_le_length (by omega)).symm]

theorem walkFrom_ctx (env : MetaEnv) (recur : Str → Ino → Attr → Option Res)
    (tcs rest : List Str) (hrest : rest ≠ []) :
    ∀ (A : List Str) (i : Nat) (parent ino : Ino) (attr : Attr), i + A.length = tcs.length →
      (∀ c, A.getLast? = some c → env.IsSpecialName c = false) →
      walkFrom env recur tcs i A parent ino attr =
        walkFrom env recur (tcs ++ rest) i A parent ino attr := by
  intro A
  induction A with
  | nil => intro i parent ino attr _ _; simp [walkFrom]
  | cons name A ih =>
    intro i parent ino attr hlen hsp
    simp only [List.length_cons] at hlen
    have hsp' : ∀ c, A.getLast? = some c → env.IsSpecialName c = false := by
      intro c hc
      apply hsp c
      cases A with
      | nil => simp at hc
      | cons b bs => rw [List.getLast?_cons_cons]; exact hc
    have hv := visit_ctx env recur tcs rest i name parent ino attr (by omega) hrest
      (fun hi => hsp name (by
        have hA : A = [] := List.length_eq_zero.mp (by omega)
        rw [hA]; rfl))
    rw [walkFrom_cons, walkFrom_cons, ← hv]
    cases visit env recur tcs i name parent ino attr with
    | skip => exact ih _ _ _ _ (by omega) hsp'
    | special k => rfl
    | ret r => rfl
    | next k a => exact ih _ _ _ _ (by omega) hsp'
    | stuck => rfl

theorem descend_nolink (env : MetaEnv) (recur recur' : Str → Ino → Attr → Option Res)
    (ss ss' : List Str) (i i' : Nat) (name : Str) (parent ino : Ino) (attr : Attr)
    (hi : 0 < i) (hi' : 0 < i')
    (hno : (env.Lookup parent name).1 = 0 → (env.Lookup parent name).2.2.Typ ≠ .TypeSymlink) :
    descend env recur ss i name parent ino attr =
      descend env recur' ss' i' name parent ino attr := by
  have hacc : accessStep env i parent attr = accessStep env i' parent attr := by
    unfold accessStep
    rw [if_pos hi, if_pos hi']
  unfold descend
  rw [hacc]
  split
  · rfl
  · split
    · rfl
    · rename_i h
      rw [if_neg (hno (by simpa using h)), if_neg (hno (by simpa using h))]

theorem walkFrom_nolink (env : MetaEnv) (recur recur' : Str → Ino → Attr → Option Res)
    (ss ss' : List Str) :
    ∀ (A : List Str) (i i' : Nat) (parent ino : Ino) (attr : Attr), 0 < i → 0 < i' →
      i + A.length = ss.length → i' + A.length = ss'.length →
      (∀ n ∈ A, ∀ p, (env.Lookup p n).1 = 0 → (env.Lookup p n).2.2.Typ ≠ .TypeSymlink) →
      walkFrom env recur ss i A parent ino attr =
        walkFrom env recur' ss' i' A parent ino attr := by
  intro A
  induction A with
  | nil => intro i i' parent ino attr _ _ _ _ _; simp [walkFrom]
  | cons name A ih =>
    intro i i' parent ino attr hi hi' hlen hlen' hno
    simp only [List.length_cons] at hlen hlen'
    have hv : visit env recur ss i name parent ino attr =
        visit env recur' ss' i' name parent ino attr := by
      unfold visit
      have hlast : (i = ss.length - 1) ↔ (i' = ss'.length - 1) := by
        constructor <;> intro _ <;> omega
      simp only [hlast]
      rw [descend_nolink env recur recur' ss ss' i i' name parent ino attr hi hi'
        (hno name (List.mem_cons_self _ _) parent)]
    have hno' : ∀ n ∈ A, ∀ p, (env.Lookup p n).1 = 0 →
        (env.Lookup p n).2.2.Typ ≠ .TypeSymlink :=
      fun n hn => hno n (List.mem_cons_of_mem _ hn)
    rw [walkFrom_cons, walkFrom_cons, ← hv]
    cases visit env recur ss i name parent ino attr with
    | skip => exact ih _ _ _ _ _ (by omega) (by omega) (by omega) (by omega) hno'
    | special k => rfl
    | ret r => rfl
    | next k a => exact ih _ _ _ _ _ (by omega) (by omega) (by omega) (by omega) hno'
    | stuck => rfl

theorem walkFrom_first (env : MetaEnv) (recur : Str → Ino → Attr → Option Res) (ss : List Str)
    (name : Str) (A : List Str) (parent ino ino' : Ino) (attr attr' : Attr)
    (hname : name ≠ []) (hss : 2 ≤ ss.length) :
    walkFrom env recur ss 0 (name :: A) parent ino attr =
        walkFrom env recur ss 0 (name :: A) parent ino' attr' ∨
    ∃ r1 r2, walkFrom env recur ss 0 (name :: A) parent ino attr = some (.ret r1) ∧
      walkFrom env recur ss 0 (name :: A) parent ino' attr' = some (.ret r2) ∧
      r1.errno = r2.errno ∧ r1.errno ≠ 0 := by
  have hv : ∀ j a, visit env recur ss 0 name parent j a = descend env recur ss 0 name parent j a := by
    intro j a
    unfold visit
    rw [if_neg (by simpa using hname), if_neg (by rintro ⟨_, h, _⟩; omega)]
  have hacc : ∀ a, accessStep env 0 parent a = (0, a) := fun a => by
    unfold accessStep; rfl
  have hd : ∀ j a, descend env recur ss 0 name parent j a =
      if (env.Lookup parent name).1 ≠ 0 then .ret ⟨(env.Lookup parent name).1, j, a⟩
      else if (env.Lookup parent name).2.2.Typ = .TypeSymlink then
        followLink env recur ss 0 (env.Lookup parent name).2.1 (env.Lookup parent name).2.2
      else .next (env.Lookup parent name).2.1 (env.Lookup parent name).2.2 := by
    intro j a
    unfold descend
    rw [hacc]
    simp only [ne_eq, not_true_eq_false, if_false]
  rw [walkFrom_cons, walkFrom_cons, hv, hv, hd, hd]
  by_cases hl : (env.Lookup parent name).1 = 0
  · left
    simp only [ne_eq, hl, not_true_eq_false, if_false]
    by_cases hs : (env.Lookup parent name).2.2.Typ = .TypeSymlink
    · rw [if_pos hs]
      rcases followLink_cases env recur ss 0 (env.Lookup parent name).2.1
        (env.Lookup parent name).2.2 with h | ⟨r, h, _⟩ | ⟨k, a, h⟩ <;> rw [h]
    · rw [if_neg hs]
  · right
    simp only [ne_eq, hl, not_false_eq_true, if_true]
    exact ⟨_, _, rfl, rfl, rfl, hl⟩

/-! ### More fuel -/

theorem followLink_mono (env : MetaEnv) (recur recur' : Str → Ino → Attr → Option Res)
    (hrec : ∀ q j a r, recur q j a = some r → recur' q j a = some r)
    (ss : List Str) (i : Nat) (lnk : Ino) (la : Attr)
    (h : followLink env recur ss i lnk la ≠ .stuck) :
    followLink env recur' ss i lnk la = followLink env recur ss i lnk la := by
  unfold followLink at h ⊢
  split
  · rfl
  · split
    · rfl
    · rename_i h1 h2
      rw [if_neg h1, if_neg h2] at h
      cases hr : recur (pathJoin (joinWith '/' (List.take i ss)) (env.ReadLink lnk).2) lnk la with
      | none => rw [hr] at h; exact absurd rfl h
      | some r => rw [hrec _ _ _ _ hr]

theorem visit_mono (env : MetaEnv) (recur recur' : Str → Ino → Attr → Option Res)
    (hrec : ∀ q j a r, recur q j a = some r → recur' q j a = some r)
    (ss : List Str) (i : Nat) (name : Str) (parent ino : Ino) (attr : Attr)
    (h : visit env recur ss i name parent ino attr ≠ .stuck) :
    visit env recur' ss i name parent ino attr = visit env recur ss i name parent ino attr := by
  unfold visit descend at h ⊢
  split
  · rfl
  · split
    · rfl
    · split
      · rfl
      · split
        · rfl
        · split
          · rename_i h1 h2 h3 h4 h5
            rw [if_neg h1, if_neg h2, if_neg h3, if_neg h4, if_pos h5] at h
            exact followLink_mono env recur recur' hrec ss i _ _ h
          · rfl

theorem walkFrom_mono (env : MetaEnv) (recur recur' : Str → Ino → Attr → Option Res)
    (hrec : ∀ q j a r, recur q j a = some r → recur' q j a = some r) (ss : List Str) :
    ∀ (A : List Str) (i : Nat) (parent ino : Ino) (attr : Attr) (o : WalkOut),
      walkFrom env recur ss i A parent ino attr = some o →
      walkFrom env recur' ss i A parent ino attr = some o := by
  intro A
  induction A with
  | nil => intro i parent ino attr o h; simpa [walkFrom] using h
  | cons name A ih =>
    intro i parent ino attr o h
    rw [walkFrom_cons] at h ⊢
    have hns : visit env recur ss i name parent ino attr ≠ .stuck := by
      intro hs
      rw [hs] at h
      simp at h
    rw [visit_mono env recur recur' hrec ss i name parent ino attr hns]
    cases hv : visit env recur ss i name parent ino attr with
    | skip => rw [hv] at h; exact ih _ _ _ _ _ h
    | special k => rw [hv] at h; exact h
    | ret r => rw [hv] at h; exact h
    | next k a => rw [hv] at h; exact ih _ _ _ _ _ h
    | stuck => exact absurd hv hns

theorem resolve_succ (env : MetaEnv) :
    ∀ (f : Nat) (p : Str) (ino : Ino) (attr : Attr) (r : Res),
      resolve env f p ino attr = some r → resolve env (f + 1) p ino attr = some r := by
  intro f
  induction f with
  | zero => intro p ino attr r h; simp [resolve] at h
  | succ f ih =>
    intro p ino attr r h
    rw [resolve] at h ⊢
    split
    · rename_i i hi
      rw [hi] at h
      exact h
    · rename_i hi
      rw [hi] at h
      simp only at h
      split
      · rename_i hE
        rw [if_pos hE] at h
        exact h
      · rename_i hE
        rw [if_neg hE] at h
        cases hw : walkFrom env (fun q j a => resolve env f q j a)
            (splitOn '/' (trimSlash p)) 0 (splitOn '/' (trimSlash p)) 1 ino attr with
        | none => rw [hw] at h; simp at h
        | some o =>
          rw [hw] at h
          rw [walkFrom_mono env _ (fun q j a => resolve env (f + 1) q j a)
            (fun q j a r hr => ih q j a r hr) _ _ _ _ _ _ o hw]
          exact h

theorem resolve_mono (env : MetaEnv) (f g : Nat) (hfg : f ≤ g) (p : Str) (ino : Ino)
    (attr : Attr) (r : Res) (h : resolve env f p ino attr = some r) :
    resolve env g p ino attr = some r := by
  induction g with
  | zero =>
    have : f = 0 := by omega
    subst this
    exact h
  | succ g ih =>
    by_cases hf : f ≤ g
    · exact resolve_succ env g p ino attr r (ih hf)
    · have : f = g + 1 := by omega
      subst this
      exact h

/-! ### Resolving through a relative symlink -/

theorem sep_mem_joinWith_of_length (c : Char) (cs : List Str) (h : 2 ≤ cs.length) :
    c ∈ joinWith c cs := by
  match cs, h with
  | w :: v :: ws, _ => exact sep_mem_joinWith c w v ws

theorem resolve_walk (env : MetaEnv) (hsup : ∀ p, (env.Resolve p).1 = ENOTSUP) (f : Nat)
    (cs : List Str) (h0 : cs ≠ []) (hgood : GoodElems cs)
    (href : inodeRef (joinWith '/' cs) = none) (ino : Ino) (attr : Attr) :
    resolve env (f + 1) (joinWith '/' cs) ino attr =
      (walkFrom env (resolve env f) cs 0 cs 1 ino attr).map (finish env) := by
  rw [resolve, href]
  simp only
  rw [if_neg (by simp [hsup]), trimSlash_joinWith cs h0 hgood,
    splitOn_joinWith '/' cs h0 (fun w hw => (hgood w hw).2)]

theorem resolve_link_core (env : MetaEnv) (hsup : ∀ p, (env.Resolve p).1 = ENOTSUP)
    (f : Nat) (pre rest tcs : List Str) (name t : Str) (ino0 : Ino) (attr0 : Attr)
    (lnk : Ino) (la : Attr)
    (hgood : GoodElems (pre ++ name :: rest)) (hrest : rest ≠ [])
    (hreach : ReachesLink env (resolve env f) (pre ++ name :: rest) pre name ino0 attr0 lnk la t)
    (hrel : hasPrefix t ['/'] = false ∧ containsStr t "://".data = false)
    (htcs : tcs ≠ []) (htgood : GoodElems tcs)
    (hT : pathJoin (joinWith '/' pre) t = joinWith '/' tcs)
    (hnoref : inodeRef (joinWith '/' tcs) = none)
    (hspecial : ∀ c, tcs.getLast? = some c → env.IsSpecialName c = false)
    (hroot : ∀ r, resolve env f (joinWith '/' tcs) lnk la = some r → r.ino ≠ env.RootInode)
    (hnolink : ∀ n ∈ rest, ∀ p, (env.Lookup p n).1 = 0 →
      (env.Lookup p n).2.2.Typ ≠ .TypeSymlink)
    (r1 : Res)
    (h1 : resolve env (f + 1) (joinWith '/' (pre ++ name :: rest)) ino0 attr0 = some r1) :
    ∃ r2, resolve env f (joinWith '/' (tcs ++ rest)) ino0 attr0 = some r2 ∧ r1.Agree r2 := by
  obtain ⟨parent, ino1, attr1, hpre, hacc, hlk, hsym, hrl⟩ := hreach
  have hgname : name ≠ [] ∧ '/' ∉ name := hgood name (by simp)
  have hgrest : GoodElems rest := fun c hc => hgood c (by simp [hc])
  have hlenrest : 0 < rest.length := List.length_pos.mpr hrest
  have hlentcs : 0 < tcs.length := List.length_pos.mpr htcs
  have href1 : inodeRef (joinWith '/' (pre ++ name :: rest)) = none :=
    inodeRef_none_of_slash _ (sep_mem_joinWith_of_length _ _ (by simp; omega))
  have hgood2 : GoodElems (tcs ++ rest) := by
    intro c hc
    rcases List.mem_append.1 hc with h | h
    · exact htgood c h
    · exact hgrest c h
  have href2 : inodeRef (joinWith '/' (tcs ++ rest)) = none :=
    inodeRef_none_of_slash _ (sep_mem_joinWith_of_length _ _ (by simp; omega))
  -- the first call: up to the symlink
  rw [resolve_walk env hsup f _ (by simp) hgood href1,
    walkFrom_append env _ _ (name :: rest) pre 0 1 ino0 attr0 (by simp), hpre] at h1
  simp only [andThen, Nat.zero_add] at h1
  rw [walkFrom_cons] at h1
  have hvisit : visit env (resolve env f) (pre ++ name :: rest) pre.length name parent ino1 attr1 =
      match resolve env f (joinWith '/' tcs) lnk la with
      | none => .stuck
      | some r => if r.errno ≠ 0 then .ret r else .next r.ino r.attr := by
    unfold visit
    rw [if_neg (by simpa using hgname.1),
      if_neg (by rintro ⟨_, h, _⟩; rw [List.length_append, List.length_cons] at h; omega)]
    unfold descend
    rw [if_neg (by simpa using hacc), hlk]
    simp only [ne_eq, not_true_eq_false, if_false, if_pos hsym]
    unfold followLink
    rw [hrl]
    simp only [ne_eq, not_true_eq_false, if_false, hrel.1, hrel.2, Bool.false_eq_true, or_self,
      List.take_left', hT]
  rw [hvisit] at h1
  cases hTres : resolve env f (joinWith '/' tcs) lnk la with
  | none => rw [hTres] at h1; simp at h1
  | some rT =>
    rw [hTres] at h1
    simp only at h1
    have hrootT := hroot rT hTres
    -- the nested call walks the joined path
    cases f with
    | zero => simp [resolve] at hTres
    | succ f' =>
      rw [resolve_walk env hsup f' tcs htcs htgood hnoref] at hTres
      rw [resolve_walk env hsup f' _ (by simp [htcs]) hgood2 href2,
        walkFrom_append env _ _ rest tcs 0 1 ino0 attr0 (by rw [List.length_append]; omega)]
      cases hoT : walkFrom env (resolve env f') tcs 0 tcs 1 lnk la with
      | none => rw [hoT] at hTres; simp at hTres
      | some oT =>
        rw [hoT] at hTres
        simp only [Option.map_some', Option.some.injEq] at hTres
        have hctx := walkFrom_ctx env (resolve env f') tcs rest hrest tcs 0 1 lnk la
          (by simp) hspecial
        rw [hoT] at hctx
        obtain ⟨c, tcs', rfl⟩ : ∃ c tcs', tcs = c :: tcs' := by
          cases tcs with
          | nil => exact absurd rfl htcs
          | cons c tcs' => exact ⟨c, tcs', rfl⟩
        have hc : c ≠ [] := (htgood c (List.mem_cons_self _ _)).1
        have hfirst := walkFrom_first env (resolve env f') (c :: tcs' ++ rest) c tcs' 1 lnk ino0
          la attr0 hc (by simp; omega)
        rw [← hctx] at hfirst
        cases oT with
        | ret r =>
          have hr0 : r.errno ≠ 0 := walkFrom_ret env _ _ _ _ _ _ _ r hoT
          simp only [finish] at hTres
          subst hTres
          rw [if_pos hr0] at h1
          simp only [Option.map_some', Option.some.injEq, finish] at h1
          subst h1
          rcases hfirst with heq | ⟨ra, rb, ha, hb, he, _⟩
          · rw [← heq]
            exact ⟨r, by simp [andThen, finish], rfl, fun _ => ⟨rfl, rfl⟩⟩
          · simp only [Option.some.injEq, WalkOut.ret.injEq] at ha
            subst ha
            rw [hb]
            exact ⟨rb, by simp [andThen, finish], he, fun h0 => absurd h0 hr0⟩
        | fin p i a d =>
          have hpi : p = i := walkFrom_fin env _ _ _ _ _ _ _ _ _ _ _ hoT
            (Or.inr ⟨c, tcs', rfl, hc⟩)
          subst hpi
          have hpr : p ≠ env.RootInode := by
            intro hp
            apply hrootT
            rw [← hTres]
            simp only [finish, if_pos hp]
            split <;> exact hp
          simp only [finish, if_neg hpr] at hTres
          subst hTres
          simp only [ne_eq, not_true_eq_false, if_false] at h1
          rcases hfirst with heq | ⟨ra, rb, ha, _, _, _⟩
          · rw [← heq]
            simp only [andThen, Nat.zero_add]
            rw [walkFrom_nolink env (resolve env f') (resolve env (f' + 1))
              (c :: tcs' ++ rest) (pre ++ name :: rest) rest (c :: tcs').length (pre.length + 1)
              p p a (by simp) (by omega) (by simp; omega) (by simp; omega) hnolink]
            cases hw : walkFrom env (resolve env (f' + 1)) (pre ++ name :: rest)
                (pre.length + 1) rest p p a with
            | none => rw [hw] at h1; simp at h1
            | some o =>
              rw [hw] at h1
              simp only [Option.map_some', Option.some.injEq] at h1
              exact ⟨finish env o, rfl, by rw [h1]; exact ⟨rfl, fun _ => ⟨rfl, rfl⟩⟩⟩
          · simp at ha

end Pfsck
